import Mathlib

/-!
Verification development for the azulejo repository.

The definitions below are a shallow embedding of the program's core
algorithms:

* `kmer_block` and `rmer_block` from `src/azulejo/synteny.py`
  (synteny-anchor window hashing over a per-scaffold frame),
* `parse_clusters` from `src/azulejo/core.py`
  (co-membership graph and identifier-component counters),
* the `ProxySelector` class from `src/azulejo/synteny.py`
  (per-cluster proxy-gene downselection).

Pandas frames are embedded as Lists of records, Python `Counter`s as
functions into `Nat`, the networkx graph as a node list plus an
assoc-list of weighted edges (most recent write first), and Python
exceptions as `Except`.  Python's builtin `hash` on tuples of ints is
abstracted as an arbitrary function `hsh : List Nat → Int`; none of the
verified properties depend on the concrete hash values.
-/

/-! ## Synteny windows (`synteny_block_func` in src/azulejo/synteny.py) -/

/-- One row of a per-scaffold frame: the two columns read by the window
closures (`cluster_id` and `cluster_size`). -/
structure Locus where
  cluster_id : Nat
  cluster_size : Nat
deriving Repr, DecidableEq

/-- Canonicalization tail shared by `kmer_block` and `rmer_block`:
`if fwd_hash > rev_hash then (1, fwd_hash) else (-1, rev_hash)`. -/
def canonicalize (hsh : List Nat → Int) (t : List Nat) : Int × Int :=
  let fwd_hash := hsh t
  let rev_hash := hsh t.reverse
  if fwd_hash > rev_hash then (1, fwd_hash) else (-1, rev_hash)

/-- The gathering loop of `kmer_block` on the scaffold suffix starting
at the window's first index: take `k` consecutive loci; give up
(`none`) when the scaffold ends first or a locus has
`cluster_size == 1` (the loop's `idx + 1 > frame_len or
frame.iloc[idx, cluster_size_col] == 1` guard). -/
def gatherK : Nat → List Locus → Option (List Nat)
  | 0, _ => some []
  | _ + 1, [] => none
  | count + 1, loc :: rest =>
    if loc.cluster_size = 1 then none
    else (gatherK count rest).map (loc.cluster_id :: ·)

/-- `kmer_block` from `synteny_block_func`: returns `(span, direction,
hash)`, with `(0, 0, 0)` as the undefined window.  The index walk
`idx = first_index, …, first_index + k - 1` over the frame is embedded
as the walk over the suffix `f.drop first_index`. -/
def kmer_block (hsh : List Nat → Int) (k : Nat) (f : List Locus)
    (first_index : Nat) : Nat × Int × Int :=
  match gatherK k (f.drop first_index) with
  | none => (0, 0, 0)
  | some cluster_list => (k, canonicalize hsh cluster_list)

/-- The walking loop of `rmer_block` on the scaffold suffix starting at
the window's first index: append each cluster id unless it repeats the
previous one (`last`), until `k` ids are collected in `acc`; give up
(`none`) at the end of the scaffold or at a locus with
`cluster_size == 1`.  Returns the collected ids and the number of raw
loci consumed (the source's `idx - first_index`). -/
def rmerGo (k : Nat) (rest : List Locus) (last : Option Nat)
    (acc : List Nat) : Option (List Nat × Nat) :=
  if k ≤ acc.length then some (acc, 0)
  else
    match rest with
    | [] => none
    | loc :: rest2 =>
      if loc.cluster_size = 1 then none
      else if some loc.cluster_id = last then
        (rmerGo k rest2 last acc).map (fun r => (r.1, r.2 + 1))
      else
        (rmerGo k rest2 (some loc.cluster_id) (acc ++ [loc.cluster_id])).map
          (fun r => (r.1, r.2 + 1))

/-- `rmer_block` from `synteny_block_func`: returns `(span, direction,
hash)`, with `(0, 0, 0)` as the undefined window. -/
def rmer_block (hsh : List Nat → Int) (k : Nat) (f : List Locus)
    (first_index : Nat) : Nat × Int × Int :=
  match rmerGo k (f.drop first_index) none [] with
  | none => (0, 0, 0)
  | some (cluster_list, consumed) => (consumed, canonicalize hsh cluster_list)

/-- The repeat-collapsing walk of `rmer_block` with the validity guard
removed: the number of raw loci the hypothetical r-mer window would
consume to collect `k` cluster ids, or `none` when the scaffold ends
first.  Used to state which loci the r-mer window "would include". -/
def rmerSpan (k : Nat) (rest : List Locus) (last : Option Nat)
    (cnt : Nat) : Option Nat :=
  if k ≤ cnt then some 0
  else
    match rest with
    | [] => none
    | loc :: rest2 =>
      if some loc.cluster_id = last then
        (rmerSpan k rest2 last cnt).map (· + 1)
      else
        (rmerSpan k rest2 (some loc.cluster_id) (cnt + 1)).map (· + 1)

/-- Adjacent-duplicate collapse with a given previous token, mirroring
the `last_cluster` bookkeeping of `rmer_block`. -/
def dedupFrom (last : Option Nat) : List Nat → List Nat
  | [] => []
  | x :: xs => if some x = last then dedupFrom last xs else x :: dedupFrom (some x) xs

/-- Collapse each maximal run of equal adjacent values into one value. -/
def dedupAdj (l : List Nat) : List Nat := dedupFrom none l

/-- A concrete stand-in hash used only to witness theorems on concrete
inputs. -/
def hashC (l : List Nat) : Int :=
  l.foldl (fun a x => a * 31 + (x : Int) + 1) 7

/-! ## Cluster graph construction (`parse_clusters` in src/azulejo/core.py) -/

/-- Value of a digit string (used for the `int(...)` call of
`parse_chromosome`; gene sub-identifiers are plain digit runs). -/
def natOfDigits (cs : List Char) : Nat :=
  cs.foldl (fun a c => a * 10 + (c.toNat - 48)) 0

/-- `parse_chromosome` from src/azulejo/core.py: work on the last
underscore-separated part (uppercased, with a leading `CHR` removed),
then read the integer before the first `G` and render it as `Chr<n>`;
`none` when there is no `G` or no integer before it. -/
def parse_chromosome (ident : String) : Option String :=
  let undersplit := ident.splitOn "_"
  let id2 :=
    if undersplit.length > 1 then
      let u := (undersplit.getLastD "").toUpper
      if u.startsWith "CHR" then u.drop 3 else u
    else ident
  match id2.toList.findIdx? (fun c => c == 'G') with
  | none => none
  | some i =>
    let ds := id2.toList.take i
    if ds ≠ [] ∧ ds.all Char.isDigit then
      some ("Chr" ++ toString (natOfDigits ds))
    else none

/-- `parse_subids` from src/azulejo/core.py: dot-separated fields plus
any derived chromosome tokens. -/
def parse_subids (ident : String) : List String :=
  let subids := ident.splitOn "."
  subids ++ subids.filterMap parse_chromosome

/-- The networkx graph as built by `parse_clusters`: a node list and an
assoc-list of weighted edges with the most recent write first, so that
lookups see the last written weight for an (unordered) node pair. -/
structure NXGraph where
  nodes : List String
  edges : List ((String × String) × Nat)
deriving Repr, DecidableEq

def addNode (g : NXGraph) (x : String) : NXGraph :=
  if x ∈ g.nodes then g else { g with nodes := g.nodes ++ [x] }

def addNodes (g : NXGraph) (ids : List String) : NXGraph :=
  ids.foldl addNode g

/-- Whether the stored, ordered edge key `p` denotes the unordered pair
`{u, v}`. -/
def edgeKeyMatch (p : String × String) (u v : String) : Bool :=
  (p.1 == u && p.2 == v) || (p.1 == v && p.2 == u)

/-- The weight attached to the undirected edge `{u, v}`, `none` when no
such edge exists (the most recent write wins). -/
def edgeWeight (g : NXGraph) (u v : String) : Option Nat :=
  (g.edges.find? (fun e => edgeKeyMatch e.1 u v)).map Prod.snd

def addEdge (g : NXGraph) (p : String × String) (w : Nat) : NXGraph :=
  let g2 := addNode (addNode g p.1) p.2
  { g2 with edges := (p, w) :: g2.edges }

/-- `graph.add_edges_from(edges, weight=w)`. -/
def addEdgesFrom (g : NXGraph) (ps : List (String × String)) (w : Nat) : NXGraph :=
  ps.foldl (fun g p => addEdge g p w) g

/-- `itertools.combinations(ids, 2)` in list order. -/
def combinations2 {α : Type} : List α → List (α × α)
  | [] => []
  | x :: xs => xs.map (fun y => (x, y)) ++ combinations2 xs

/-- The synonym-expansion step of `parse_clusters`: append the synonym
lists of every synonym key present among the member ids. -/
def expandSynonyms (synonyms : List (String × List String))
    (ids : List String) : List String :=
  ids ++ ((synonyms.filter (fun kv => ids.contains kv.1)).map Prod.snd).flatten

/-- The accumulated outputs of `parse_clusters`; the Python `Counter`s
become functions into `Nat`. -/
structure PCResult where
  graph : NXGraph
  cluster_list : List Nat
  id_list : List String
  size_list : List Nat
  degree_list : List Nat
  degree_counter : Nat → Nat
  any_counter : String → Nat
  all_counter : String → Nat

def emptyPC : PCResult :=
  ⟨⟨[], []⟩, [], [], [], [], fun _ => 0, fun _ => 0, fun _ => 0⟩

/-- The body of the `for fasta in outdir.glob("*")` loop of
`parse_clusters`, for one cluster `(cluster_id, ids)`: synonym
expansion, degree and membership bookkeeping, the two component
counters (cluster-level mode when `count_clusters`, gene-level mode
weighted by `n_ids` and restricted to `n_ids > 1` otherwise), and the
graph update (all members as nodes, the complete pairwise edge set with
weight `n_ids` when `n_ids > 1`). -/
def processCluster (count_clusters : Bool)
    (synonyms : List (String × List String)) (acc : PCResult)
    (c : Nat × List String) : PCResult :=
  let ids := expandSynonyms synonyms c.2
  let n_ids := ids.length
  let subids := (ids.map parse_subids).flatten
  let keys := subids.dedup
  let allKeys := keys.filter (fun s => subids.count s == n_ids)
  let any2 : String → Nat :=
    if count_clusters then
      fun s => acc.any_counter s + (if s ∈ keys then 1 else 0)
    else if n_ids > 1 then
      fun s => acc.any_counter s + (if s ∈ keys then n_ids else 0)
    else acc.any_counter
  let all2 : String → Nat :=
    if count_clusters then
      fun s => acc.all_counter s + (if s ∈ allKeys then 1 else 0)
    else if n_ids > 1 then
      fun s => acc.all_counter s + (if s ∈ allKeys then n_ids else 0)
    else acc.all_counter
  let g1 := addNodes acc.graph ids
  let g2 := if n_ids > 1 then addEdgesFrom g1 (combinations2 ids) n_ids else g1
  { graph := g2
    cluster_list := acc.cluster_list ++ List.replicate n_ids c.1
    id_list := acc.id_list ++ ids
    size_list := acc.size_list ++ List.replicate n_ids n_ids
    degree_list := acc.degree_list ++ [n_ids]
    degree_counter := fun m => acc.degree_counter m + (if m = n_ids then 1 else 0)
    any_counter := any2
    all_counter := all2 }

/-- `parse_clusters` from src/azulejo/core.py over a list of clusters
`(cluster_id, member ids)`.  The storage-deletion side effect is
outside the embedded data model. -/
def parse_clusters (clusters : List (Nat × List String))
    (count_clusters : Bool)
    (synonyms : List (String × List String)) : PCResult :=
  clusters.foldl (processCluster count_clusters synonyms) emptyPC

/-- Whether the complete pairwise edge set of a cluster with member
list `ids` contains the unordered pair `{u, v}`. -/
def pairMatch (ids : List String) (u v : String) : Bool :=
  (combinations2 ids).any (fun p => edgeKeyMatch p u v)

/-! ## Proxy-gene downselection (`ProxySelector` in src/azulejo/synteny.py) -/

/-- One row of the homology+synteny proxy frame: the columns read by
`ProxySelector`; `rid` is the frame's gene-id index, embedded as an
opaque natural number. -/
structure PRow where
  rid : Nat
  cluster_id : Nat
  synteny_id : Nat
  protein_len : Nat
  stem : String
deriving Repr, DecidableEq

instance : Inhabited PRow := ⟨⟨0, 0, 0, 0, ""⟩⟩

/-- The Python exceptions the selector can raise: the uniqueness
`ValueError` of `choose_by_preference`, and positional indexing of an
empty selection. -/
inductive PyErr where
  | valueErr
  | indexErr
deriving Repr, DecidableEq

/-- The mutable state of a `ProxySelector` instance; the frame itself
is immutable here, and its `reason`-column writes are logged in
`reasons`. -/
structure SelState where
  reasons : List (Nat × String)
  drop_ids : List Nat
  first_choice : String
  first_choice_hits : Nat
  first_choice_unavailable : Nat
  cluster_count : Nat
deriving Repr, DecidableEq

/-- `ProxySelector.__init__` for a given preference list. -/
def initState (prefs : List String) : SelState :=
  ⟨[], [], prefs.headI, 0, 0, 0⟩

/-- The frame lookup `cluster.loc[chosen_one, "stem"]`. -/
def stemOfRid (cluster : List PRow) (rid : Nat) : String :=
  ((cluster.find? (fun r => r.rid == rid)).map PRow.stem).getD ""

/-- `ProxySelector.choose`: record the reason for the chosen row,
update the first-choice statistics, and either extend `drop_ids` with
the non-chosen members of the whole cluster (`drop_non_chosen`) or add
their number to `cluster_count`. -/
def choose (chosen : Nat) (cluster : List PRow) (reason : String)
    (drop_non_chosen : Bool) (s : SelState) : SelState :=
  let non_chosen := (cluster.map PRow.rid).erase chosen
  { s with
    reasons := s.reasons ++ [(chosen, reason)]
    first_choice_unavailable := s.first_choice_unavailable +
      (if s.first_choice ∈ cluster.map PRow.stem then 0 else 1)
    first_choice_hits := s.first_choice_hits +
      (if stemOfRid cluster chosen = s.first_choice then 1 else 0)
    drop_ids := if drop_non_chosen then s.drop_ids ++ non_chosen else s.drop_ids
    cluster_count :=
      if drop_non_chosen then s.cluster_count
      else s.cluster_count + non_chosen.length }

/-- First index of the maximum (`np.argmax`). -/
def argmaxIdx (l : List Nat) : Nat :=
  l.findIdx (fun x => x == l.foldr max 0)

/-- `ProxySelector.choose_by_preference`.  The `pref_lens` entries are
`int(len(idx) > 0)`, i.e. 0 or 1, so the uniqueness guard
`pref_lens[best_choice] > 1` can never fire; positional indexing of an
empty best selection is the `indexErr` outcome. -/
def choose_by_preference (prefs : List String)
    (subcluster cluster : List PRow) (reason : String)
    (drop_non_chosen : Bool) (s : SelState) : Except PyErr SelState :=
  let pref_idxs : List (List Nat) :=
    prefs.map (fun pref => (subcluster.filter (fun r => r.stem == pref)).map PRow.rid)
  let pref_lens : List Nat :=
    pref_idxs.map (fun idx => if idx.length > 0 then 1 else 0)
  let best_choice := argmaxIdx pref_lens
  if (pref_lens.getD best_choice 0) > 1 then Except.error PyErr.valueErr
  else
    match (pref_idxs.getD best_choice []).head? with
    | some chosen => Except.ok (choose chosen cluster reason drop_non_chosen s)
    | none => Except.error PyErr.indexErr

/-- `statistics.median_low` (sorts its data first). -/
def median_low (l : List Nat) : Nat :=
  if l.length % 2 = 1 then (l.insertionSort (· ≤ ·)).getD (l.length / 2) 0
  else (l.insertionSort (· ≤ ·)).getD (l.length / 2 - 1) 0

/-- `statistics.median_high` (sorts its data first). -/
def median_high (l : List Nat) : Nat :=
  (l.insertionSort (· ≤ ·)).getD (l.length / 2) 0

/-- `max(counts)` over `value_counts()` of the protein lengths. -/
def max_count (lengths : List Nat) : Nat :=
  (lengths.map (fun v => lengths.count v)).foldr max 0

/-- `ProxySelector.choose_by_length`: when some length repeats
(`max_count > 1`), restrict to the rows at maximally-repeated lengths
and tie-break by preference with reason `mode<N>`; otherwise take the
rows at the low/high median lengths with reason `median`. -/
def choose_by_length (prefs : List String) (subcluster cluster : List PRow)
    (drop_non_chosen : Bool) (s : SelState) : Except PyErr SelState :=
  let lengths := subcluster.map PRow.protein_len
  if max_count lengths > 1 then
    let modal_cluster :=
      subcluster.filter (fun r => lengths.count r.protein_len == max_count lengths)
    choose_by_preference prefs modal_cluster cluster
      ("mode" ++ toString modal_cluster.length) drop_non_chosen s
  else
    let median_vals := [median_low lengths, median_high lengths]
    let median_pair := subcluster.filter (fun r => r.protein_len ∈ median_vals)
    choose_by_preference prefs median_pair cluster "median" drop_non_chosen s

/-- The ascending synteny keys of `cluster.groupby(by=["synteny_id"])`. -/
def syntenyKeys (cluster : List PRow) : List Nat :=
  ((cluster.map PRow.synteny_id).insertionSort (· ≤ ·)).dedup

/-- One iteration of the groupby loop in
`ProxySelector.cluster_selector`, on the group `(synteny_id, rows)`;
`drop_non_chosen = (not synteny_id)` is `synteny_id == 0`. -/
def groupStep (prefs : List String) (cluster : List PRow) (st : SelState)
    (kg : Nat × List PRow) : Except PyErr SelState :=
  if kg.2.length > 1 then
    choose_by_length prefs kg.2 cluster (kg.1 == 0) st
  else if (kg.2.headI).synteny_id ≠ 0 then
    Except.ok (choose (kg.2.headI).rid cluster "bad_synteny" (kg.1 == 0) st)
  else
    Except.ok (choose (kg.2.headI).rid cluster "single" (kg.1 == 0) st)

/-- `ProxySelector.cluster_selector` for one homology cluster. -/
def cluster_selector (prefs : List String) (cluster : List PRow)
    (s0 : SelState) : Except PyErr SelState :=
  let s := { s0 with cluster_count := s0.cluster_count + 1 }
  if cluster.length = 1 then
    Except.ok (choose (cluster.headI).rid cluster "singleton" true s)
  else
    ((syntenyKeys cluster).map
      (fun k2 => (k2, cluster.filter (fun r => r.synteny_id == k2)))).foldlM
      (groupStep prefs cluster) s

/-- The ascending cluster keys of
`proxy_frame.groupby(by=["cluster_id"])`. -/
def clusterKeys (frame : List PRow) : List Nat :=
  ((frame.map PRow.cluster_id).insertionSort (· ≤ ·)).dedup

/-- The downselection loop of the `proxy_genes` command: run
`cluster_selector` over every cluster_id group. -/
def runSelector (frame : List PRow) (prefs : List String) :
    Except PyErr SelState :=
  (clusterKeys frame).foldlM
    (fun s c => cluster_selector prefs (frame.filter (fun r => r.cluster_id == c)) s)
    (initState prefs)

/-- `ProxySelector.downselect_frame`: the frame with the accumulated
`drop_ids` rows removed. -/
def downselect_frame (frame : List PRow) (s : SelState) : List PRow :=
  frame.filter (fun r => !(s.drop_ids.contains r.rid))

/-- The full downselection pipeline of `proxy_genes`. -/
def proxy_select (frame : List PRow) (prefs : List String) :
    Except PyErr (List PRow) :=
  (runSelector frame prefs).map (downselect_frame frame)

/-- The possible contribution of one cluster_id group to `drop_ids`:
nothing for singleton clusters and for multi-member clusters without a
`synteny_id == 0` member; everything except the chosen member of the
zero group otherwise. -/
def ClusterDrop (mems : List PRow) (d : List Nat) : Prop :=
  (d = [] ∧ (mems.length = 1 ∨ ¬ ∃ r ∈ mems, r.synteny_id = 0)) ∨
  (1 < mems.length ∧
    ∃ ch ∈ (mems.filter (fun r => r.synteny_id == 0)).map PRow.rid,
      d = (mems.map PRow.rid).erase ch)

theorem canonicalize_snd_eq_max (hsh : List Nat → Int) (t : List Nat) :
    (canonicalize hsh t).2 = max (hsh t) (hsh t.reverse) := by
  unfold canonicalize
  rcases le_or_lt (hsh t) (hsh t.reverse) with h | h
  · rw [if_neg (by omega), max_eq_right h]
  · rw [if_pos h, max_eq_left h.le]

theorem canonicalize_reverse_snd (hsh : List Nat → Int) (t : List Nat) :
    (canonicalize hsh t.reverse).2 = (canonicalize hsh t).2 := by
  rw [canonicalize_snd_eq_max, canonicalize_snd_eq_max, List.reverse_reverse,
    max_comm]

/-- C5: for every tuple `t` of `k` collected cluster_ids (collected by
the k-mer gathering loop from any frame at any start index), the window
function returns the same hash for `t` as for `reverse t` — namely the
max of the forward and reverse hashes — and the direction is `+1` with
the forward hash exactly when the forward hash is greater than the
reverse hash, else `-1` with the reverse hash. -/
theorem kmer_hash_canonical_symmetry (hsh : List Nat → Int) (k : Nat)
    (f g : List Locus) (i j : Nat) (t : List Nat)
    (hf : gatherK k (f.drop i) = some t)
    (hg : gatherK k (g.drop j) = some t.reverse) :
    (kmer_block hsh k f i).2.2 = (kmer_block hsh k g j).2.2 ∧
    (kmer_block hsh k f i).2.2 = max (hsh t) (hsh t.reverse) ∧
    (hsh t > hsh t.reverse → (kmer_block hsh k f i).2 = (1, hsh t)) ∧
    (¬ hsh t > hsh t.reverse → (kmer_block hsh k f i).2 = (-1, hsh t.reverse)) := by
  unfold kmer_block
  rw [hf, hg]
  refine ⟨(canonicalize_reverse_snd hsh t).symm, canonicalize_snd_eq_max hsh t,
    fun hgt => ?_, fun hle => ?_⟩
  · simp only [canonicalize, if_pos hgt]
  · simp only [canonicalize, if_neg hle]

/-- Witness for `kmer_hash_canonical_symmetry` at a concrete frame, its
reversal, and the concrete hash `hashC`. -/
theorem kmer_hash_canonical_symmetry_witness :
    gatherK 2 (([⟨3, 2⟩, ⟨5, 2⟩] : List Locus).drop 0) = some [3, 5] ∧
    gatherK 2 (([⟨5, 2⟩, ⟨3, 2⟩] : List Locus).drop 0) = some ([3, 5] : List Nat).reverse ∧
    (kmer_block hashC 2 [⟨3, 2⟩, ⟨5, 2⟩] 0).2.2
      = (kmer_block hashC 2 [⟨5, 2⟩, ⟨3, 2⟩] 0).2.2 :=
  ⟨rfl, rfl,
    (kmer_hash_canonical_symmetry hashC 2 [⟨3, 2⟩, ⟨5, 2⟩] [⟨5, 2⟩, ⟨3, 2⟩]
      0 0 [3, 5] (by rfl) (by rfl)).1⟩

theorem gatherK_eq_none (k : Nat) :
    ∀ rest : List Locus,
      (∃ i, i < k ∧
        (rest[i]? = none ∨ ∃ loc, rest[i]? = some loc ∧ loc.cluster_size = 1)) →
      gatherK k rest = none := by
  induction k with
  | zero => intro rest ⟨i, hi, _⟩; omega
  | succ n ih =>
    intro rest ⟨i, hi, hbad⟩
    match rest with
    | [] => rfl
    | loc :: rest2 =>
      show gatherK (n + 1) (loc :: rest2) = none
      unfold gatherK
      by_cases hsz : loc.cluster_size = 1
      · rw [if_pos hsz]
      · rw [if_neg hsz]
        have hi0 : i ≠ 0 := by
          intro h0; subst h0
          rcases hbad with hnone | ⟨loc2, hloc2, hsz2⟩
          · rw [List.getElem?_cons_zero] at hnone
            exact Option.noConfusion hnone
          · rw [List.getElem?_cons_zero] at hloc2
            exact hsz (by cases Option.some.inj hloc2; exact hsz2)
        obtain ⟨i2, rfl⟩ : ∃ i2, i = i2 + 1 := ⟨i - 1, by omega⟩
        rw [ih rest2 ⟨i2, by omega, by simpa using hbad⟩]
        rfl

theorem rmerGo_none_of_span_none (k : Nat) :
    ∀ (rest : List Locus) (last : Option Nat) (acc : List Nat),
      rmerSpan k rest last acc.length = none →
      rmerGo k rest last acc = none := by
  intro rest
  induction rest with
  | nil =>
    intro last acc hspan
    unfold rmerSpan at hspan
    unfold rmerGo
    by_cases hk : k ≤ acc.length
    · rw [if_pos hk] at hspan; exact Option.noConfusion hspan
    · rw [if_neg hk]
  | cons loc rest2 ih =>
    intro last acc hspan
    unfold rmerSpan at hspan
    unfold rmerGo
    by_cases hk : k ≤ acc.length
    · rw [if_pos hk] at hspan; exact Option.noConfusion hspan
    · rw [if_neg hk] at hspan ⊢
      dsimp only at hspan ⊢
      by_cases hsz : loc.cluster_size = 1
      · rw [if_pos hsz]
      · rw [if_neg hsz]
        by_cases hlast : some loc.cluster_id = last
        · rw [if_pos hlast] at hspan ⊢
          rw [ih last acc (Option.map_eq_none.mp hspan)]
          rfl
        · rw [if_neg hlast] at hspan ⊢
          have hrec := Option.map_eq_none.mp hspan
          rw [ih (some loc.cluster_id) (acc ++ [loc.cluster_id])
            (by simpa using hrec)]
          rfl

theorem rmerGo_none_of_singleton (k : Nat) :
    ∀ (rest : List Locus) (last : Option Nat) (acc : List Nat) (e : Nat),
      rmerSpan k rest last acc.length = some e →
      (∃ i, i < e ∧ ∃ loc, rest[i]? = some loc ∧ loc.cluster_size = 1) →
      rmerGo k rest last acc = none := by
  intro rest
  induction rest with
  | nil =>
    intro last acc e hspan ⟨i, hi, _⟩
    unfold rmerSpan at hspan
    by_cases hk : k ≤ acc.length
    · rw [if_pos hk] at hspan
      cases Option.some.inj hspan
      omega
    · rw [if_neg hk] at hspan; exact Option.noConfusion hspan
  | cons loc rest2 ih =>
    intro last acc e hspan ⟨i, hi, loc2, hloc2, hsz2⟩
    unfold rmerSpan at hspan
    unfold rmerGo
    by_cases hk : k ≤ acc.length
    · rw [if_pos hk] at hspan
      cases Option.some.inj hspan
      omega
    · rw [if_neg hk] at hspan ⊢
      dsimp only at hspan ⊢
      by_cases hsz : loc.cluster_size = 1
      · rw [if_pos hsz]
      · rw [if_neg hsz]
        have hi0 : i ≠ 0 := by
          intro h0; subst h0
          rw [List.getElem?_cons_zero] at hloc2
          exact hsz (by cases Option.some.inj hloc2; exact hsz2)
        obtain ⟨i2, rfl⟩ : ∃ i2, i = i2 + 1 := ⟨i - 1, by omega⟩
        have hloc2' : rest2[i2]? = some loc2 := by simpa using hloc2
        by_cases hlast : some loc.cluster_id = last
        · rw [if_pos hlast] at hspan ⊢
          obtain ⟨e2, hrec, rfl⟩ := Option.map_eq_some'.mp hspan
          rw [ih last acc e2 hrec ⟨i2, by omega, loc2, hloc2', hsz2⟩]
          rfl
        · rw [if_neg hlast] at hspan ⊢
          obtain ⟨e2, hrec, rfl⟩ := Option.map_eq_some'.mp hspan
          rw [ih (some loc.cluster_id) (acc ++ [loc.cluster_id]) e2
            (by simpa using hrec) ⟨i2, by omega, loc2, hloc2', hsz2⟩]
          rfl

theorem dedupFrom_head_ne (y : Nat) :
    ∀ l : List Nat, (dedupFrom (some y) l).head? ≠ some y := by
  intro l
  induction l generalizing y with
  | nil => simp [dedupFrom]
  | cons x xs ih =>
    unfold dedupFrom
    by_cases hx : some x = some y
    · rw [if_pos hx]
      cases Option.some.inj hx
      exact ih x
    · rw [if_neg hx]
      intro hcon
      exact hx (List.head?_cons ▸ hcon)

theorem dedupFrom_chain (l : List Nat) :
    ∀ last : Option Nat, List.Chain' (· ≠ ·) (dedupFrom last l) := by
  induction l with
  | nil => intro last; simp [dedupFrom]
  | cons x xs ih =>
    intro last
    unfold dedupFrom
    by_cases hx : some x = last
    · rw [if_pos hx]; exact ih last
    · rw [if_neg hx]
      rw [List.chain'_cons']
      refine ⟨fun b hb hxb => ?_, ih (some x)⟩
      refine dedupFrom_head_ne x xs ?_
      rw [Option.mem_def] at hb
      rw [hb, hxb]

theorem rmerGo_some_spec (k : Nat) :
    ∀ (rest : List Locus) (last : Option Nat) (acc : List Nat)
      (t : List Nat) (s : Nat),
      acc.length < k →
      rmerGo k rest last acc = some (t, s) →
      t = acc ++ dedupFrom last ((rest.map Locus.cluster_id).take s) ∧
      t.length = k ∧ s ≤ rest.length ∧
      (∀ m, m < s →
        (acc ++ dedupFrom last ((rest.map Locus.cluster_id).take m)).length < k) := by
  intro rest
  induction rest with
  | nil =>
    intro last acc t s hlt hgo
    unfold rmerGo at hgo
    rw [if_neg (by omega)] at hgo
    exact Option.noConfusion hgo
  | cons loc rest2 ih =>
    intro last acc t s hlt hgo
    unfold rmerGo at hgo
    rw [if_neg (by omega)] at hgo
    dsimp only at hgo
    by_cases hsz : loc.cluster_size = 1
    · rw [if_pos hsz] at hgo; exact Option.noConfusion hgo
    · rw [if_neg hsz] at hgo
      by_cases hlast : some loc.cluster_id = last
      · rw [if_pos hlast] at hgo
        obtain ⟨⟨t2, s2⟩, hrec, heq⟩ := Option.map_eq_some'.mp hgo
        have heqt : t2 = t := congrArg Prod.fst heq
        have heqs : s2 + 1 = s := congrArg Prod.snd heq
        subst heqt
        subst heqs
        obtain ⟨ht, hlen, hs2, hmin⟩ := ih last acc t2 s2 hlt hrec
        refine ⟨?_, hlen, by simp; omega, ?_⟩
        · rw [ht]
          simp only [List.map_cons, List.take_succ_cons]
          rw [dedupFrom, if_pos hlast]
        · intro m hm
          match m with
          | 0 => simpa [dedupFrom] using hlt
          | m2 + 1 =>
            simp only [List.map_cons, List.take_succ_cons]
            rw [dedupFrom, if_pos hlast]
            exact hmin m2 (by omega)
      · rw [if_neg hlast] at hgo
        obtain ⟨⟨t2, s2⟩, hrec, heq⟩ := Option.map_eq_some'.mp hgo
        have heqt : t2 = t := congrArg Prod.fst heq
        have heqs : s2 + 1 = s := congrArg Prod.snd heq
        subst heqt
        subst heqs
        by_cases hfull : k ≤ acc.length + 1
        · have hrec2 : rmerGo k rest2 (some loc.cluster_id)
              (acc ++ [loc.cluster_id]) = some (acc ++ [loc.cluster_id], 0) := by
            unfold rmerGo
            rw [if_pos (by simp; omega)]
          rw [hrec2] at hrec
          have hpair : acc ++ [loc.cluster_id] = t2 ∧ (0 : Nat) = s2 := by
            have := Option.some.inj hrec
            exact ⟨congrArg Prod.fst this, congrArg Prod.snd this⟩
          obtain ⟨hpt, hps⟩ := hpair
          subst hpt
          subst hps
          refine ⟨?_, by simp; omega, by simp, ?_⟩
          · simp only [List.map_cons, List.take_succ_cons, List.take_zero]
            rw [dedupFrom, if_neg hlast]
            simp [dedupFrom]
          · intro m hm
            match m with
            | 0 => simpa [dedupFrom] using hlt
            | m2 + 1 => omega
        · have hlt2 : (acc ++ [loc.cluster_id]).length < k := by simp; omega
          obtain ⟨ht, hlen, hs2, hmin⟩ :=
            ih (some loc.cluster_id) (acc ++ [loc.cluster_id]) t2 s2 hlt2 hrec
          refine ⟨?_, hlen, by simp; omega, ?_⟩
          · rw [ht]
            simp only [List.map_cons, List.take_succ_cons]
            rw [dedupFrom, if_neg hlast]
            simp
          · intro m hm
            match m with
            | 0 => simpa [dedupFrom] using hlt
            | m2 + 1 =>
              simp only [List.map_cons, List.take_succ_cons]
              rw [dedupFrom, if_neg hlast]
              have := hmin m2 (by omega)
              simpa using this

/-- C8: when the r-mer window is defined (result not `(0, 0, 0)`), the
window's raw loci `w` (the `span` loci following `first_index`) collapse
— one token per maximal run of equal adjacent cluster_ids — to exactly
`k` pairwise adjacent-distinct tokens, the span is the least number of
raw loci yielding `k` tokens, and the hash is the canonical hash of the
collapsed token tuple. -/
theorem rmer_window_structure (hsh : List Nat → Int) (k : Nat)
    (f : List Locus) (first_index : Nat) (s : Nat) (d hh : Int)
    (hk : 1 ≤ k)
    (hres : rmer_block hsh k f first_index = (s, d, hh))
    (hdef : (s, d, hh) ≠ ((0 : Nat), (0 : Int), (0 : Int))) :
    (dedupAdj (((f.map Locus.cluster_id).drop first_index).take s)).length = k ∧
    List.Chain' (· ≠ ·)
      (dedupAdj (((f.map Locus.cluster_id).drop first_index).take s)) ∧
    (∀ m, m < s →
      (dedupAdj (((f.map Locus.cluster_id).drop first_index).take m)).length < k) ∧
    hh = max (hsh (dedupAdj (((f.map Locus.cluster_id).drop first_index).take s)))
      (hsh (dedupAdj (((f.map Locus.cluster_id).drop first_index).take s)).reverse) := by
  unfold rmer_block at hres
  rcases hgo : rmerGo k (f.drop first_index) none [] with _ | ⟨t, consumed⟩
  · rw [hgo] at hres
    exact absurd hres.symm hdef
  · rw [hgo] at hres
    dsimp only at hres
    obtain ⟨ht, hlen, _, hmin⟩ :=
      rmerGo_some_spec k (f.drop first_index) none [] t consumed
        (by simpa using hk) hgo
    simp only [List.nil_append] at ht hmin
    have hs : s = consumed := (congrArg Prod.fst hres).symm
    subst hs
    have hmap : (f.drop first_index).map Locus.cluster_id
        = (f.map Locus.cluster_id).drop first_index :=
      List.map_drop Locus.cluster_id f first_index
    have hw : dedupAdj (((f.map Locus.cluster_id).drop first_index).take s) = t := by
      rw [← hmap, dedupAdj]
      exact ht.symm
    rw [hw]
    refine ⟨hlen, ?_, ?_, ?_⟩
    · rw [ht]
      exact dedupFrom_chain _ none
    · intro m hm
      have := hmin m hm
      rw [← hmap]
      simpa [dedupAdj] using this
    · have h2 : hh = (canonicalize hsh t).2 :=
        (congrArg (fun p => p.2.2) hres).symm
      rw [h2, canonicalize_snd_eq_max]

/-- Witness for `rmer_window_structure` at a concrete frame with a
repeated cluster id. -/
theorem rmer_window_structure_witness :
    1 ≤ 2 ∧
    (dedupAdj ((([⟨4, 2⟩, ⟨4, 2⟩, ⟨9, 3⟩] : List Locus).map
      Locus.cluster_id).drop 0 |>.take 3)).length = 2 :=
  ⟨by omega,
    (rmer_window_structure hashC 2 [⟨4, 2⟩, ⟨4, 2⟩, ⟨9, 3⟩] 0 3 (-1) 7042
      (by omega) (by decide) (by decide)).1⟩

/-- C6: a window that would run past the end of the scaffold or would
include a locus with `cluster_size == 1` yields the undefined window
`(span 0, direction 0, hash 0)`; both window closures are total Lean
functions, so no exception is raised.  For the r-mer closure the loci
the window "would include" are the `e` suffix positions consumed by the
guard-free walk `rmerSpan`. -/
theorem window_undefined_propagation (hsh : List Nat → Int) (k : Nat)
    (f : List Locus) (first_index : Nat) (hk : 1 ≤ k) :
    (f.length < first_index + k ∨
      (∃ i, first_index ≤ i ∧ i < first_index + k ∧
        ∃ loc, f[i]? = some loc ∧ loc.cluster_size = 1) →
      kmer_block hsh k f first_index = (0, 0, 0)) ∧
    (rmerSpan k (f.drop first_index) none 0 = none →
      rmer_block hsh k f first_index = (0, 0, 0)) ∧
    (∀ e, rmerSpan k (f.drop first_index) none 0 = some e →
      (∃ i, i < e ∧
        ∃ loc, (f.drop first_index)[i]? = some loc ∧ loc.cluster_size = 1) →
      rmer_block hsh k f first_index = (0, 0, 0)) := by
  refine ⟨fun hcross => ?_, fun hnone => ?_, fun e hspan hbad => ?_⟩
  · have hnone : gatherK k (f.drop first_index) = none := by
      apply gatherK_eq_none
      rcases hcross with hpast | ⟨i, hi1, hi2, loc, hloc, hsz⟩
      · refine ⟨(f.drop first_index).length, ?_, Or.inl ?_⟩
        · rw [List.length_drop]; omega
        · exact List.getElem?_eq_none le_rfl
      · refine ⟨i - first_index, by omega, Or.inr ⟨loc, ?_, hsz⟩⟩
        rw [List.getElem?_drop]
        rwa [Nat.add_sub_cancel' hi1]
    unfold kmer_block
    rw [hnone]
  · have h := rmerGo_none_of_span_none k (f.drop first_index) none [] hnone
    unfold rmer_block
    rw [h]
  · have h := rmerGo_none_of_singleton k (f.drop first_index) none [] e hspan hbad
    unfold rmer_block
    rw [h]

theorem processCluster_counter_le (count_clusters : Bool)
    (synonyms : List (String × List String)) (acc : PCResult)
    (c : Nat × List String) (x : String)
    (hacc : acc.all_counter x ≤ acc.any_counter x) :
    (processCluster count_clusters synonyms acc c).all_counter x
      ≤ (processCluster count_clusters synonyms acc c).any_counter x := by
  unfold processCluster
  dsimp only
  have hsub :
      x ∈ ((((expandSynonyms synonyms c.2).map parse_subids).flatten).dedup.filter
        (fun s => (((expandSynonyms synonyms c.2).map parse_subids).flatten).count s
          == (expandSynonyms synonyms c.2).length)) →
      x ∈ (((expandSynonyms synonyms c.2).map parse_subids).flatten).dedup :=
    fun h => List.mem_of_mem_filter h
  by_cases hm : count_clusters
  · simp only [if_pos hm]
    by_cases hall : x ∈ ((((expandSynonyms synonyms c.2).map parse_subids).flatten).dedup.filter
        (fun s => (((expandSynonyms synonyms c.2).map parse_subids).flatten).count s
          == (expandSynonyms synonyms c.2).length))
    · rw [if_pos hall, if_pos (hsub hall)]
      omega
    · rw [if_neg hall]
      by_cases hany : x ∈ (((expandSynonyms synonyms c.2).map parse_subids).flatten).dedup
      · rw [if_pos hany]; omega
      · rw [if_neg hany]; omega
  · simp only [if_neg hm]
    by_cases hn : (expandSynonyms synonyms c.2).length > 1
    · simp only [if_pos hn]
      by_cases hall : x ∈ ((((expandSynonyms synonyms c.2).map parse_subids).flatten).dedup.filter
          (fun s => (((expandSynonyms synonyms c.2).map parse_subids).flatten).count s
            == (expandSynonyms synonyms c.2).length))
      · rw [if_pos hall, if_pos (hsub hall)]
        omega
      · rw [if_neg hall]
        by_cases hany : x ∈ (((expandSynonyms synonyms c.2).map parse_subids).flatten).dedup
        · rw [if_pos hany]; omega
        · rw [if_neg hany]; omega
    · simp only [if_neg hn]
      exact hacc

theorem parse_clusters_fold_counter_le (count_clusters : Bool)
    (synonyms : List (String × List String)) :
    ∀ (clusters : List (Nat × List String)) (acc : PCResult),
      (∀ x, acc.all_counter x ≤ acc.any_counter x) →
      ∀ x, (clusters.foldl (processCluster count_clusters synonyms) acc).all_counter x
        ≤ (clusters.foldl (processCluster count_clusters synonyms) acc).any_counter x := by
  intro clusters
  induction clusters with
  | nil => intro acc hacc x; exact hacc x
  | cons c cs ih =>
    intro acc hacc x
    exact ih (processCluster count_clusters synonyms acc c)
      (fun y => processCluster_counter_le count_clusters synonyms acc c y (hacc y)) x

/-- C9: in both counting modes, the counters produced by
`parse_clusters` satisfy `all_counter c ≤ any_counter c` for every
identifier component `c`. -/
theorem counter_ordering (clusters : List (Nat × List String))
    (count_clusters : Bool) (synonyms : List (String × List String))
    (c : String) :
    (parse_clusters clusters count_clusters synonyms).all_counter c
      ≤ (parse_clusters clusters count_clusters synonyms).any_counter c :=
  parse_clusters_fold_counter_le count_clusters synonyms clusters emptyPC
    (fun _ => le_rfl) c

/-- Witness for `window_undefined_propagation`: a scaffold with a
singleton cluster at position 0, checked for the in-window singleton
condition and the run-past-the-end condition of both closures. -/
theorem window_undefined_propagation_witness :
    (1 ≤ 2 ∧ kmer_block hashC 2 [⟨7, 1⟩, ⟨8, 2⟩] 0 = (0, 0, 0)) ∧
    kmer_block hashC 2 [⟨7, 1⟩, ⟨8, 2⟩] 1 = (0, 0, 0) ∧
    rmer_block hashC 2 [⟨7, 1⟩, ⟨8, 2⟩] 1 = (0, 0, 0) ∧
    rmer_block hashC 2 [⟨7, 1⟩, ⟨8, 2⟩] 0 = (0, 0, 0) := by
  refine ⟨⟨by omega, ?_⟩, ?_, ?_, ?_⟩
  · exact (window_undefined_propagation hashC 2 [⟨7, 1⟩, ⟨8, 2⟩] 0 (by omega)).1
      (Or.inr ⟨0, by omega, by omega, ⟨7, 1⟩, by rfl, rfl⟩)
  · exact (window_undefined_propagation hashC 2 [⟨7, 1⟩, ⟨8, 2⟩] 1 (by omega)).1
      (Or.inl (by simp))
  · exact (window_undefined_propagation hashC 2 [⟨7, 1⟩, ⟨8, 2⟩] 1
      (by omega)).2.1 (by rfl)
  · exact (window_undefined_propagation hashC 2 [⟨7, 1⟩, ⟨8, 2⟩] 0
      (by omega)).2.2 2 (by rfl) ⟨0, by omega, ⟨7, 1⟩, by rfl, rfl⟩

theorem addNode_edges (g : NXGraph) (x : String) :
    (addNode g x).edges = g.edges := by
  unfold addNode
  by_cases hx : x ∈ g.nodes
  · rw [if_pos hx]
  · rw [if_neg hx]

theorem addNodes_edges (ids : List String) :
    ∀ g : NXGraph, (addNodes g ids).edges = g.edges := by
  induction ids with
  | nil => intro g; rfl
  | cons x xs ih =>
    intro g
    show (addNodes (addNode g x) xs).edges = g.edges
    rw [ih (addNode g x), addNode_edges]

theorem edgeWeight_addNodes (g : NXGraph) (ids : List String) (u v : String) :
    edgeWeight (addNodes g ids) u v = edgeWeight g u v := by
  unfold edgeWeight
  rw [addNodes_edges]

theorem edgeWeight_addEdge (g : NXGraph) (p : String × String) (w : Nat)
    (u v : String) :
    edgeWeight (addEdge g p w) u v
      = if edgeKeyMatch p u v = true then some w else edgeWeight g u v := by
  unfold addEdge edgeWeight
  dsimp only
  rw [addNode_edges, addNode_edges]
  by_cases hm : edgeKeyMatch p u v = true
  · rw [if_pos hm]
    have hfind : List.find? (fun e => edgeKeyMatch e.1 u v) ((p, w) :: g.edges)
        = some (p, w) :=
      List.find?_cons_of_pos _ (by simpa using hm)
    rw [hfind]
    rfl
  · rw [if_neg hm]
    have hfind : List.find? (fun e => edgeKeyMatch e.1 u v) ((p, w) :: g.edges)
        = List.find? (fun e => edgeKeyMatch e.1 u v) g.edges :=
      List.find?_cons_of_neg _ (by simpa using hm)
    rw [hfind]

theorem edgeWeight_addEdgesFrom (ps : List (String × String)) (w : Nat)
    (u v : String) :
    ∀ g : NXGraph,
      edgeWeight (addEdgesFrom g ps w) u v
        = if ps.any (fun p => edgeKeyMatch p u v) = true then some w
          else edgeWeight g u v := by
  induction ps with
  | nil => intro g; simp [addEdgesFrom]
  | cons p ps ih =>
    intro g
    show edgeWeight (addEdgesFrom (addEdge g p w) ps w) u v = _
    rw [ih (addEdge g p w), edgeWeight_addEdge]
    by_cases h1 : ps.any (fun p => edgeKeyMatch p u v) = true
    · rw [if_pos h1, if_pos (by simp [List.any_cons, h1])]
    · rw [if_neg h1]
      by_cases h2 : edgeKeyMatch p u v = true
      · rw [if_pos h2, if_pos (by simp [List.any_cons, h2])]
      · rw [if_neg h2, if_neg (by simp [List.any_cons, h1, h2])]

theorem edgeWeight_processCluster (count_clusters : Bool)
    (synonyms : List (String × List String)) (acc : PCResult)
    (c : Nat × List String) (u v : String) :
    edgeWeight (processCluster count_clusters synonyms acc c).graph u v
      = if (decide (1 < (expandSynonyms synonyms c.2).length)
            && pairMatch (expandSynonyms synonyms c.2) u v) = true
        then some (expandSynonyms synonyms c.2).length
        else edgeWeight acc.graph u v := by
  unfold processCluster
  dsimp only
  by_cases hn : (expandSynonyms synonyms c.2).length > 1
  · rw [if_pos hn, edgeWeight_addEdgesFrom, edgeWeight_addNodes]
    by_cases hp : pairMatch (expandSynonyms synonyms c.2) u v = true
    · rw [if_pos (by exact hp), if_pos (by simp [hn, hp])]
    · rw [if_neg (by exact hp), if_neg (by simp [hp])]
  · rw [if_neg hn, edgeWeight_addNodes, if_neg (by simp [hn])]

theorem edgeWeight_parse_fold (count_clusters : Bool)
    (synonyms : List (String × List String)) (u v : String) :
    ∀ (clusters : List (Nat × List String)) (acc : PCResult),
      edgeWeight ((clusters.foldl (processCluster count_clusters synonyms) acc)).graph u v
        = match (clusters.filter (fun c =>
            decide (1 < (expandSynonyms synonyms c.2).length)
              && pairMatch (expandSynonyms synonyms c.2) u v)).getLast? with
          | some c => some (expandSynonyms synonyms c.2).length
          | none => edgeWeight acc.graph u v := by
  intro clusters
  induction clusters using List.reverseRecOn with
  | nil => intro acc; rfl
  | append_singleton cs c ih =>
    intro acc
    rw [List.foldl_append, List.filter_append]
    show edgeWeight (processCluster count_clusters synonyms
      (cs.foldl (processCluster count_clusters synonyms) acc) c).graph u v = _
    rw [edgeWeight_processCluster]
    by_cases hp : (decide (1 < (expandSynonyms synonyms c.2).length)
        && pairMatch (expandSynonyms synonyms c.2) u v) = true
    · rw [if_pos hp]
      have : List.filter (fun c =>
          decide (1 < (expandSynonyms synonyms c.2).length)
            && pairMatch (expandSynonyms synonyms c.2) u v) [c] = [c] := by
        simp [List.filter, hp]
      rw [this, List.getLast?_concat]
    · rw [if_neg hp]
      have : List.filter (fun c =>
          decide (1 < (expandSynonyms synonyms c.2).length)
            && pairMatch (expandSynonyms synonyms c.2) u v) [c] = [] := by
        simp only [List.filter, hp]
      rw [this, List.append_nil]
      exact ih acc

theorem addNode_nodes_mono (g : NXGraph) (x y : String) (hx : x ∈ g.nodes) :
    x ∈ (addNode g y).nodes := by
  unfold addNode
  by_cases hy : y ∈ g.nodes
  · rw [if_pos hy]; exact hx
  · rw [if_neg hy]; exact List.mem_append_left _ hx

theorem addNode_nodes_self (g : NXGraph) (x : String) :
    x ∈ (addNode g x).nodes := by
  unfold addNode
  by_cases hx : x ∈ g.nodes
  · rw [if_pos hx]; exact hx
  · rw [if_neg hx]; exact List.mem_append_right _ (List.mem_singleton.mpr rfl)

theorem addNodes_nodes_mono (ids : List String) :
    ∀ (g : NXGraph) (x : String), x ∈ g.nodes → x ∈ (addNodes g ids).nodes := by
  induction ids with
  | nil => intro g x hx; exact hx
  | cons y ys ih =>
    intro g x hx
    exact ih (addNode g y) x (addNode_nodes_mono g x y hx)

theorem addNodes_nodes_mem (ids : List String) :
    ∀ (g : NXGraph) (x : String), x ∈ ids → x ∈ (addNodes g ids).nodes := by
  induction ids with
  | nil => intro g x hx; cases hx
  | cons y ys ih =>
    intro g x hx
    rcases List.mem_cons.mp hx with rfl | hx2
    · exact addNodes_nodes_mono ys (addNode g x) x (addNode_nodes_self g x)
    · exact ih (addNode g y) x hx2

theorem addEdge_nodes_mono (g : NXGraph) (p : String × String) (w : Nat)
    (x : String) (hx : x ∈ g.nodes) : x ∈ (addEdge g p w).nodes := by
  unfold addEdge
  exact addNode_nodes_mono _ x p.2 (addNode_nodes_mono g x p.1 hx)

theorem addEdgesFrom_nodes_mono (ps : List (String × String)) (w : Nat) :
    ∀ (g : NXGraph) (x : String), x ∈ g.nodes → x ∈ (addEdgesFrom g ps w).nodes := by
  induction ps with
  | nil => intro g x hx; exact hx
  | cons p ps ih =>
    intro g x hx
    exact ih (addEdge g p w) x (addEdge_nodes_mono g p w x hx)

theorem processCluster_nodes_mono (count_clusters : Bool)
    (synonyms : List (String × List String)) (acc : PCResult)
    (c : Nat × List String) (x : String) (hx : x ∈ acc.graph.nodes) :
    x ∈ (processCluster count_clusters synonyms acc c).graph.nodes := by
  unfold processCluster
  dsimp only
  by_cases hn : (expandSynonyms synonyms c.2).length > 1
  · rw [if_pos hn]
    exact addEdgesFrom_nodes_mono _ _ _ x (addNodes_nodes_mono _ acc.graph x hx)
  · rw [if_neg hn]
    exact addNodes_nodes_mono _ acc.graph x hx

theorem processCluster_nodes_mem (count_clusters : Bool)
    (synonyms : List (String × List String)) (acc : PCResult)
    (c : Nat × List String) (x : String)
    (hx : x ∈ expandSynonyms synonyms c.2) :
    x ∈ (processCluster count_clusters synonyms acc c).graph.nodes := by
  unfold processCluster
  dsimp only
  by_cases hn : (expandSynonyms synonyms c.2).length > 1
  · rw [if_pos hn]
    exact addEdgesFrom_nodes_mono _ _ _ x (addNodes_nodes_mem _ acc.graph x hx)
  · rw [if_neg hn]
    exact addNodes_nodes_mem _ acc.graph x hx

theorem parse_fold_nodes_mono (count_clusters : Bool)
    (synonyms : List (String × List String)) :
    ∀ (clusters : List (Nat × List String)) (acc : PCResult) (x : String),
      x ∈ acc.graph.nodes →
      x ∈ ((clusters.foldl (processCluster count_clusters synonyms) acc)).graph.nodes := by
  intro clusters
  induction clusters with
  | nil => intro acc x hx; exact hx
  | cons c cs ih =>
    intro acc x hx
    exact ih (processCluster count_clusters synonyms acc c) x
      (processCluster_nodes_mono count_clusters synonyms acc c x hx)

theorem parse_fold_nodes_mem (count_clusters : Bool)
    (synonyms : List (String × List String)) :
    ∀ (clusters : List (Nat × List String)) (acc : PCResult)
      (c : Nat × List String), c ∈ clusters →
      ∀ i ∈ expandSynonyms synonyms c.2,
        i ∈ ((clusters.foldl (processCluster count_clusters synonyms) acc)).graph.nodes := by
  intro clusters
  induction clusters with
  | nil => intro acc c hc; cases hc
  | cons c0 cs ih =>
    intro acc c hc i hi
    rcases List.mem_cons.mp hc with rfl | hc2
    · exact parse_fold_nodes_mono count_clusters synonyms cs _ i
        (processCluster_nodes_mem count_clusters synonyms acc c i hi)
    · exact ih (processCluster count_clusters synonyms acc c0) c hc2 i hi

theorem parse_fold_degree_list (count_clusters : Bool)
    (synonyms : List (String × List String)) :
    ∀ (clusters : List (Nat × List String)) (acc : PCResult),
      ((clusters.foldl (processCluster count_clusters synonyms) acc)).degree_list
        = acc.degree_list
          ++ clusters.map (fun c => (expandSynonyms synonyms c.2).length) := by
  intro clusters
  induction clusters with
  | nil => intro acc; simp
  | cons c cs ih =>
    intro acc
    show ((cs.foldl (processCluster count_clusters synonyms)
      (processCluster count_clusters synonyms acc c))).degree_list = _
    rw [ih]
    show (processCluster count_clusters synonyms acc c).degree_list ++ _ = _
    unfold processCluster
    dsimp only
    rw [List.append_assoc]
    rfl

theorem pairMatch_self_of_two_le_count (i : String) :
    ∀ ids : List String, 2 ≤ ids.count i → pairMatch ids i i = true := by
  intro ids
  induction ids with
  | nil => intro h; simp at h
  | cons x xs ih =>
    intro h
    unfold pairMatch combinations2
    rw [List.any_append]
    rcases eq_or_ne x i with rfl | hx
    · have hmem : x ∈ xs := by
        rw [List.count_cons_self] at h
        exact List.count_pos_iff.mp (by omega)
      have h1 : (xs.map (fun y => (x, y))).any (fun p => edgeKeyMatch p x x) = true := by
        rw [List.any_eq_true]
        exact ⟨(x, x), List.mem_map.mpr ⟨x, hmem, rfl⟩, by simp [edgeKeyMatch]⟩
      rw [h1]
      rfl
    · have hcnt : 2 ≤ xs.count i := by
        rw [List.count_cons_of_ne hx.symm] at h
        exact h
      have h2 := ih hcnt
      unfold pairMatch at h2
      rw [h2, Bool.or_true]

theorem dedup_length_lt_of_two_le_count {α : Type} [DecidableEq α]
    (l : List α) (a : α) (h : 2 ≤ l.count a) :
    l.dedup.length < l.length := by
  rcases Nat.lt_or_ge l.dedup.length l.length with hlt | hge
  · exact hlt
  · exfalso
    have hsub := List.dedup_sublist l
    have hlen : l.dedup.length = l.length :=
      Nat.le_antisymm hsub.length_le hge
    have heq : l.dedup = l := hsub.eq_of_length hlen
    have hnd : l.Nodup := heq ▸ List.nodup_dedup l
    have := List.nodup_iff_count_le_one.mp hnd a
    omega

/-- C7: full characterization of the co-membership graph built by
`parse_clusters`.  The weight of the undirected edge `{u, v}` is the
post-synonym-expansion size of the most recently processed cluster of
size > 1 whose pairwise edge set covers the pair (last write wins, not
additive); there is no edge otherwise.  In particular every pair of a
multi-member cluster has an edge, and members of singleton clusters are
still added as (edge-less, hence isolated) nodes. -/
theorem graph_clique_last_write (clusters : List (Nat × List String))
    (count_clusters : Bool) (synonyms : List (String × List String)) :
    (∀ u v : String,
      edgeWeight (parse_clusters clusters count_clusters synonyms).graph u v
        = ((clusters.filter (fun c =>
            decide (1 < (expandSynonyms synonyms c.2).length)
              && pairMatch (expandSynonyms synonyms c.2) u v)).getLast?).map
          (fun c => (expandSynonyms synonyms c.2).length)) ∧
    (∀ c ∈ clusters, ∀ i ∈ expandSynonyms synonyms c.2,
      i ∈ (parse_clusters clusters count_clusters synonyms).graph.nodes) ∧
    (∀ c ∈ clusters, 1 < (expandSynonyms synonyms c.2).length →
      ∀ u v : String, pairMatch (expandSynonyms synonyms c.2) u v = true →
        ∃ w, edgeWeight (parse_clusters clusters count_clusters synonyms).graph u v
          = some w) := by
  have hchar : ∀ u v : String,
      edgeWeight (parse_clusters clusters count_clusters synonyms).graph u v
        = ((clusters.filter (fun c =>
            decide (1 < (expandSynonyms synonyms c.2).length)
              && pairMatch (expandSynonyms synonyms c.2) u v)).getLast?).map
          (fun c => (expandSynonyms synonyms c.2).length) := by
    intro u v
    unfold parse_clusters
    rw [edgeWeight_parse_fold count_clusters synonyms u v clusters emptyPC]
    rcases hlast : (clusters.filter (fun c =>
        decide (1 < (expandSynonyms synonyms c.2).length)
          && pairMatch (expandSynonyms synonyms c.2) u v)).getLast? with _ | c
    · rw [hlast]
      rfl
    · rw [hlast]
      rfl
  refine ⟨hchar, ?_, ?_⟩
  · intro c hc i hi
    exact parse_fold_nodes_mem count_clusters synonyms clusters emptyPC c hc i hi
  · intro c hc hn u v hp
    rw [hchar u v]
    have hmemf : c ∈ clusters.filter (fun c =>
        decide (1 < (expandSynonyms synonyms c.2).length)
          && pairMatch (expandSynonyms synonyms c.2) u v) :=
      List.mem_filter.mpr ⟨hc, by simp [hn, hp]⟩
    have hne : clusters.filter (fun c =>
        decide (1 < (expandSynonyms synonyms c.2).length)
          && pairMatch (expandSynonyms synonyms c.2) u v) ≠ [] :=
      List.ne_nil_of_mem hmemf
    rcases hlast : (clusters.filter (fun c =>
        decide (1 < (expandSynonyms synonyms c.2).length)
          && pairMatch (expandSynonyms synonyms c.2) u v)).getLast? with _ | c2
    · exact absurd (List.getLast?_eq_none_iff.mp hlast) hne
    · rw [hlast]
      exact ⟨(expandSynonyms synonyms c2.2).length, rfl⟩

/-- Witness for `graph_clique_last_write` on Scenario C of the spec:
clusters `{1: {a,b,c}, 2: {b,c}}` with empty synonyms give edge
weights (a,b)=3, (a,c)=3, (b,c)=2, and the last-write-wins overwrite of
the b-c edge. -/
theorem graph_clique_last_write_witness :
    edgeWeight (parse_clusters [(1, ["a", "b", "c"]), (2, ["b", "c"])]
      true []).graph "a" "b" = some 3 ∧
    edgeWeight (parse_clusters [(1, ["a", "b", "c"]), (2, ["b", "c"])]
      true []).graph "a" "c" = some 3 ∧
    edgeWeight (parse_clusters [(1, ["a", "b", "c"]), (2, ["b", "c"])]
      true []).graph "b" "c" = some 2 ∧
    "a" ∈ (parse_clusters [(1, ["a", "b", "c"]), (2, ["b", "c"])]
      true []).graph.nodes := by
  refine ⟨?_, ?_, ?_, ?_⟩
  · rw [(graph_clique_last_write [(1, ["a", "b", "c"]), (2, ["b", "c"])]
      true []).1 "a" "b"]
    rfl
  · rw [(graph_clique_last_write [(1, ["a", "b", "c"]), (2, ["b", "c"])]
      true []).1 "a" "c"]
    rfl
  · rw [(graph_clique_last_write [(1, ["a", "b", "c"]), (2, ["b", "c"])]
      true []).1 "b" "c"]
    rfl
  · exact (graph_clique_last_write [(1, ["a", "b", "c"]), (2, ["b", "c"])]
      true []).2.1 (1, ["a", "b", "c"]) (by simp) "a" (by simp [expandSynonyms])

/-- C10: a cluster whose post-synonym-expansion member list contains
the same id `i` more than once is counted with multiplicity: the
recorded size and degree `n_ids` (the expanded length) exceeds the
number of distinct members, `n_ids` appears in `degree_list`, and the
graph acquires a self-loop edge at `i`. -/
theorem duplicate_member_multiplicity (clusters : List (Nat × List String))
    (count_clusters : Bool) (synonyms : List (String × List String))
    (c : Nat × List String) (i : String) (hc : c ∈ clusters)
    (hcount : 2 ≤ (expandSynonyms synonyms c.2).count i) :
    (expandSynonyms synonyms c.2).dedup.length
      < (expandSynonyms synonyms c.2).length ∧
    (expandSynonyms synonyms c.2).length
      ∈ (parse_clusters clusters count_clusters synonyms).degree_list ∧
    ∃ w, edgeWeight (parse_clusters clusters count_clusters synonyms).graph i i
      = some w := by
  have hlen2 : 2 ≤ (expandSynonyms synonyms c.2).length :=
    le_trans hcount (List.count_le_length _ _)
  refine ⟨dedup_length_lt_of_two_le_count _ i hcount, ?_, ?_⟩
  · unfold parse_clusters
    rw [parse_fold_degree_list count_clusters synonyms clusters emptyPC]
    refine List.mem_append_right _ ?_
    exact List.mem_map.mpr ⟨c, hc, rfl⟩
  · -- the self-loop pair (i, i) is produced by combinations over the
    -- duplicated member, so the edge-weight characterization applies
    have hpm : pairMatch (expandSynonyms synonyms c.2) i i = true :=
      pairMatch_self_of_two_le_count i _ hcount
    unfold parse_clusters
    rw [edgeWeight_parse_fold count_clusters synonyms i i clusters emptyPC]
    have hmemf : c ∈ clusters.filter (fun c =>
        decide (1 < (expandSynonyms synonyms c.2).length)
          && pairMatch (expandSynonyms synonyms c.2) i i) :=
      List.mem_filter.mpr ⟨hc, by simp [hpm]; omega⟩
    have hne : clusters.filter (fun c =>
        decide (1 < (expandSynonyms synonyms c.2).length)
          && pairMatch (expandSynonyms synonyms c.2) i i) ≠ [] :=
      List.ne_nil_of_mem hmemf
    rcases hlast : (clusters.filter (fun c =>
        decide (1 < (expandSynonyms synonyms c.2).length)
          && pairMatch (expandSynonyms synonyms c.2) i i)).getLast? with _ | c2
    · exact absurd (List.getLast?_eq_none_iff.mp hlast) hne
    · rw [hlast]
      exact ⟨(expandSynonyms synonyms c2.2).length, rfl⟩

/-- Witness for `duplicate_member_multiplicity`: the synonym `a` of
member `b` duplicates the existing member `a`, giving expanded members
`[a, b, a]` with a self-loop at `a`. -/
theorem duplicate_member_multiplicity_witness :
    2 ≤ (expandSynonyms [("b", ["a"])] ["a", "b"]).count "a" ∧
    (expandSynonyms [("b", ["a"])] ["a", "b"]).dedup.length
      < (expandSynonyms [("b", ["a"])] ["a", "b"]).length ∧
    ∃ w, edgeWeight (parse_clusters [(1, ["a", "b"])] true
      [("b", ["a"])]).graph "a" "a" = some w :=
  ⟨by decide,
    (duplicate_member_multiplicity [(1, ["a", "b"])] true [("b", ["a"])]
      (1, ["a", "b"]) "a" (by simp) (by decide)).1,
    (duplicate_member_multiplicity [(1, ["a", "b"])] true [("b", ["a"])]
      (1, ["a", "b"]) "a" (by simp) (by decide)).2.2⟩

theorem getD_le_one :
    ∀ L : List Nat, (∀ x ∈ L, x ≤ 1) → ∀ i : Nat, L.getD i 0 ≤ 1 := by
  intro L
  induction L with
  | nil => intro _ i; cases i <;> simp [List.getD]
  | cons a L2 ih =>
    intro h i
    match i with
    | 0 => simpa using h a (by simp)
    | i2 + 1 =>
      show L2.getD i2 0 ≤ 1
      exact ih (fun x hx => h x (by simp [hx])) i2

theorem choose_by_preference_no_value_error (prefs : List String)
    (subcluster cluster : List PRow) (reason : String)
    (drop_non_chosen : Bool) (s : SelState) :
    choose_by_preference prefs subcluster cluster reason drop_non_chosen s
      ≠ Except.error PyErr.valueErr := by
  unfold choose_by_preference
  dsimp only
  have hle : ((prefs.map (fun pref =>
      (subcluster.filter (fun r => r.stem == pref)).map PRow.rid)).map
        (fun idx => if idx.length > 0 then 1 else 0)).getD
      (argmaxIdx ((prefs.map (fun pref =>
        (subcluster.filter (fun r => r.stem == pref)).map PRow.rid)).map
          (fun idx => if idx.length > 0 then 1 else 0))) 0 ≤ 1 := by
    apply getD_le_one
    intro x hx
    obtain ⟨idx, _, hxeq⟩ := List.mem_map.mp hx
    subst hxeq
    by_cases hl : idx.length > 0
    · rw [if_pos hl]
    · rw [if_neg hl]; omega
  rw [if_neg (by omega)]
  rcases hh : ((prefs.map (fun pref =>
      (subcluster.filter (fun r => r.stem == pref)).map PRow.rid)).getD
        (argmaxIdx ((prefs.map (fun pref =>
          (subcluster.filter (fun r => r.stem == pref)).map PRow.rid)).map
            (fun idx => if idx.length > 0 then 1 else 0))) []).head? with _ | chosen
  · rw [hh]
    intro hcon
    exact PyErr.noConfusion (Except.error.inj hcon)
  · rw [hh]
    intro hcon
    exact Except.noConfusion hcon

/-- C3 (failing input for the claimed loud failure): two candidate rows
share the earliest-preferred stem `A`, yet `choose_by_preference`
silently selects the first of them instead of raising — the uniqueness
guard compares `int(len(idx) > 0)` (0 or 1) against 1 and is dead code,
as the second conjunct states for every input. -/
theorem choose_by_preference_silent_duplicate :
    (choose_by_preference ["A", "B"]
        [⟨1, 1, 0, 10, "A"⟩, ⟨2, 1, 0, 11, "A"⟩]
        [⟨1, 1, 0, 10, "A"⟩, ⟨2, 1, 0, 11, "A"⟩] "tie" true
        (initState ["A", "B"])).map (fun st => st.reasons)
      = Except.ok [(1, "tie")] ∧
    ∀ (prefs : List String) (subcluster cluster : List PRow)
      (reason : String) (dnc : Bool) (s : SelState),
      choose_by_preference prefs subcluster cluster reason dnc s
        ≠ Except.error PyErr.valueErr := by
  constructor
  · rfl
  · intro prefs subcluster cluster reason dnc s
    exact choose_by_preference_no_value_error prefs subcluster cluster reason dnc s

/-- Witness for `choose_by_preference_silent_duplicate` applying its
universally quantified part at a concrete input. -/
theorem choose_by_preference_silent_duplicate_witness :
    choose_by_preference ["A"] [⟨1, 1, 0, 10, "A"⟩] [⟨1, 1, 0, 10, "A"⟩]
      "r" true (initState ["A"]) ≠ Except.error PyErr.valueErr :=
  choose_by_preference_silent_duplicate.2 ["A"] [⟨1, 1, 0, 10, "A"⟩]
    [⟨1, 1, 0, 10, "A"⟩] "r" true (initState ["A"])

theorem le_foldr_max : ∀ (l : List Nat) (x : Nat), x ∈ l → x ≤ l.foldr max 0 := by
  intro l
  induction l with
  | nil => intro x hx; cases hx
  | cons a l2 ih =>
    intro x hx
    rcases List.mem_cons.mp hx with rfl | hx2
    · exact le_max_left _ _
    · exact le_trans (ih x hx2) (le_max_right _ _)

theorem foldr_max_le (b : Nat) :
    ∀ l : List Nat, (∀ x ∈ l, x ≤ b) → l.foldr max 0 ≤ b := by
  intro l
  induction l with
  | nil => intro _; simp
  | cons a l2 ih =>
    intro h
    simp only [List.foldr_cons]
    exact max_le (h a (by simp)) (ih (fun x hx => h x (by simp [hx])))

theorem argmax_map_indicator (I : List (List Nat))
    (hex : ∃ idx ∈ I, idx ≠ []) :
    (I.map (fun idx => if idx.length > 0 then 1 else 0)).getD
      (argmaxIdx (I.map (fun idx => if idx.length > 0 then 1 else 0))) 0 = 1 ∧
    argmaxIdx (I.map (fun idx => if idx.length > 0 then 1 else 0)) < I.length ∧
    I.getD (argmaxIdx (I.map (fun idx => if idx.length > 0 then 1 else 0))) []
      ≠ [] := by
  obtain ⟨idx0, hidx0, hne0⟩ := hex
  have hallle : ∀ x ∈ I.map (fun idx => if idx.length > 0 then 1 else 0), x ≤ 1 := by
    intro x hx
    obtain ⟨idx, _, hxeq⟩ := List.mem_map.mp hx
    subst hxeq
    by_cases hl : idx.length > 0
    · rw [if_pos hl]
    · rw [if_neg hl]; omega
  have h1mem : (1 : Nat) ∈ I.map (fun idx => if idx.length > 0 then 1 else 0) := by
    refine List.mem_map.mpr ⟨idx0, hidx0, ?_⟩
    rw [if_pos (List.length_pos.mpr hne0)]
  have hmax : (I.map (fun idx => if idx.length > 0 then 1 else 0)).foldr max 0 = 1 := by
    have h1 := le_foldr_max _ 1 h1mem
    have h2 := foldr_max_le 1 _ hallle
    omega
  have hbest : argmaxIdx (I.map (fun idx => if idx.length > 0 then 1 else 0))
      < (I.map (fun idx => if idx.length > 0 then 1 else 0)).length := by
    apply List.findIdx_lt_length_of_exists
    exact ⟨1, h1mem, by rw [hmax]; rfl⟩
  have hbestI : argmaxIdx (I.map (fun idx => if idx.length > 0 then 1 else 0))
      < I.length := by
    rw [List.length_map] at hbest
    exact hbest
  have hgd1 : (I.map (fun idx => if idx.length > 0 then 1 else 0)).getD
      (argmaxIdx (I.map (fun idx => if idx.length > 0 then 1 else 0))) 0 = 1 := by
    rw [List.getD_eq_getElem _ 0 hbest]
    have hbest2 : List.findIdx
        (fun x => x == (I.map (fun idx =>
          if idx.length > 0 then 1 else 0)).foldr max 0)
        (I.map (fun idx => if idx.length > 0 then 1 else 0))
        < (I.map (fun idx => if idx.length > 0 then 1 else 0)).length := hbest
    have h3 := @List.findIdx_getElem _
      (fun x => x == (I.map (fun idx =>
        if idx.length > 0 then 1 else 0)).foldr max 0)
      (I.map (fun idx => if idx.length > 0 then 1 else 0)) hbest2
    exact (beq_iff_eq.mp h3).trans hmax
  refine ⟨hgd1, hbestI, ?_⟩
  have hmapped := @List.getElem_map (List Nat) Nat
    (fun idx : List Nat => if idx.length > 0 then 1 else 0) I
    (argmaxIdx (I.map (fun idx => if idx.length > 0 then 1 else 0))) hbest
  have h4 : (fun idx : List Nat => if idx.length > 0 then 1 else 0)
      (I.getD (argmaxIdx (I.map (fun idx =>
        if idx.length > 0 then 1 else 0))) []) = 1 := by
    rw [List.getD_eq_getElem _ [] hbestI]
    dsimp only
    rw [← hmapped, ← List.getD_eq_getElem _ 0 hbest]
    exact hgd1
  intro hcon
  rw [hcon] at h4
  simp at h4

theorem choose_by_preference_ok (prefs : List String)
    (subcluster cluster : List PRow) (reason : String) (dnc : Bool)
    (s : SelState) (hex : ∃ r ∈ subcluster, r.stem ∈ prefs) :
    ∃ chosen, chosen ∈ subcluster.map PRow.rid ∧
      choose_by_preference prefs subcluster cluster reason dnc s
        = Except.ok (choose chosen cluster reason dnc s) := by
  obtain ⟨r, hr, hpref⟩ := hex
  have hexI : ∃ idx ∈ prefs.map
      (fun pref => (subcluster.filter (fun r2 => r2.stem == pref)).map PRow.rid),
      idx ≠ [] := by
    refine ⟨(subcluster.filter (fun r2 => r2.stem == r.stem)).map PRow.rid,
      List.mem_map.mpr ⟨r.stem, hpref, rfl⟩, ?_⟩
    have hrmem : r ∈ subcluster.filter (fun r2 => r2.stem == r.stem) :=
      List.mem_filter.mpr ⟨hr, by simp⟩
    intro hcon
    have hmm : r.rid ∈ (subcluster.filter (fun r2 => r2.stem == r.stem)).map PRow.rid :=
      List.mem_map.mpr ⟨r, hrmem, rfl⟩
    rw [hcon] at hmm
    cases hmm
  obtain ⟨hg1, hblt, hbne⟩ := argmax_map_indicator
    (prefs.map (fun pref => (subcluster.filter (fun r2 => r2.stem == pref)).map PRow.rid))
    hexI
  rcases hh : ((prefs.map (fun pref =>
      (subcluster.filter (fun r2 => r2.stem == pref)).map PRow.rid)).getD
      (argmaxIdx ((prefs.map (fun pref =>
        (subcluster.filter (fun r2 => r2.stem == pref)).map PRow.rid)).map
          (fun idx => if idx.length > 0 then 1 else 0))) []).head? with _ | chosen
  · exact absurd (List.head?_eq_none_iff.mp hh) hbne
  · have hchosenmem : chosen ∈ (prefs.map (fun pref =>
        (subcluster.filter (fun r2 => r2.stem == pref)).map PRow.rid)).getD
        (argmaxIdx ((prefs.map (fun pref =>
          (subcluster.filter (fun r2 => r2.stem == pref)).map PRow.rid)).map
            (fun idx => if idx.length > 0 then 1 else 0))) [] :=
      List.mem_of_mem_head? (by rw [hh]; exact Option.mem_def.mpr rfl)
    have hchosen : chosen ∈ subcluster.map PRow.rid := by
      rw [List.getD_eq_getElem _ [] hblt] at hchosenmem
      have hgm := @List.getElem_map (String) (List Nat)
        (fun pref => (subcluster.filter (fun r2 => r2.stem == pref)).map PRow.rid)
        prefs
        (argmaxIdx ((prefs.map (fun pref =>
          (subcluster.filter (fun r2 => r2.stem == pref)).map PRow.rid)).map
            (fun idx => if idx.length > 0 then 1 else 0)))
        (by simpa using hblt)
      rw [hgm] at hchosenmem
      obtain ⟨row, hrow, hroweq⟩ := List.mem_map.mp hchosenmem
      exact List.mem_map.mpr ⟨row, List.mem_of_mem_filter hrow, hroweq⟩
    refine ⟨chosen, hchosen, ?_⟩
    unfold choose_by_preference
    dsimp only
    rw [hg1]
    rw [if_neg (by omega)]
    rw [hh]

theorem foldr_max_mem_of_pos :
    ∀ l : List Nat, l ≠ [] → (∀ x ∈ l, 1 ≤ x) → l.foldr max 0 ∈ l := by
  intro l
  induction l with
  | nil => intro h; exact absurd rfl h
  | cons a l2 ih =>
    intro _ hpos
    simp only [List.foldr_cons]
    rcases eq_or_ne l2.length 0 with hl2 | hl2
    · have : l2 = [] := List.length_eq_zero.mp hl2
      subst this
      simp
    · have hl2ne : l2 ≠ [] := by
        intro hcon; rw [hcon] at hl2; simp at hl2
      have hmem2 := ih hl2ne (fun y hy => hpos y (by simp [hy]))
      rcases le_or_lt (l2.foldr max 0) a with hle | hlt
      · rw [max_eq_left hle]; simp
      · rw [max_eq_right hlt.le]
        exact List.mem_cons_of_mem a hmem2

theorem max_count_attained (lengths : List Nat) (hne : lengths ≠ []) :
    ∃ v ∈ lengths, lengths.count v = max_count lengths := by
  have hne2 : lengths.map (fun v => lengths.count v) ≠ [] := by
    intro hcon
    exact hne (List.map_eq_nil_iff.mp hcon)
  have hpos : ∀ x ∈ lengths.map (fun v => lengths.count v), 1 ≤ x := by
    intro x hx
    obtain ⟨v, hv, hveq⟩ := List.mem_map.mp hx
    subst hveq
    exact List.count_pos_iff.mpr hv
  have hmem := foldr_max_mem_of_pos _ hne2 hpos
  obtain ⟨v, hv, hveq⟩ := List.mem_map.mp hmem
  exact ⟨v, hv, hveq⟩

theorem median_low_mem (l : List Nat) (hne : l ≠ []) : median_low l ∈ l := by
  have hlen : (l.insertionSort (· ≤ ·)).length = l.length :=
    (List.perm_insertionSort (· ≤ ·) l).length_eq
  have hpos : 0 < l.length := List.length_pos.mpr hne
  have hmem : ∀ i, i < l.length → (l.insertionSort (· ≤ ·)).getD i 0 ∈ l := by
    intro i hi
    rw [List.getD_eq_getElem _ 0 (by omega)]
    exact (List.perm_insertionSort (· ≤ ·) l).mem_iff.mp
      (List.getElem_mem (by omega))
  unfold median_low
  by_cases hodd : l.length % 2 = 1
  · rw [if_pos hodd]
    exact hmem _ (by omega)
  · rw [if_neg hodd]
    have heven : l.length % 2 = 0 := by omega
    have h2 : 2 ≤ l.length := by omega
    exact hmem _ (by omega)

theorem median_high_mem (l : List Nat) (hne : l ≠ []) : median_high l ∈ l := by
  have hlen : (l.insertionSort (· ≤ ·)).length = l.length :=
    (List.perm_insertionSort (· ≤ ·) l).length_eq
  have hpos : 0 < l.length := List.length_pos.mpr hne
  unfold median_high
  rw [List.getD_eq_getElem _ 0 (by omega)]
  exact (List.perm_insertionSort (· ≤ ·) l).mem_iff.mp
    (List.getElem_mem (by omega))

theorem choose_by_length_ok (prefs : List String)
    (subcluster cluster : List PRow) (dnc : Bool) (s : SelState)
    (hne : subcluster ≠ []) (hp : ∀ r ∈ subcluster, r.stem ∈ prefs) :
    ∃ chosen reason2, chosen ∈ subcluster.map PRow.rid ∧
      choose_by_length prefs subcluster cluster dnc s
        = Except.ok (choose chosen cluster reason2 dnc s) := by
  unfold choose_by_length
  dsimp only
  by_cases hmc : max_count (subcluster.map PRow.protein_len) > 1
  · rw [if_pos hmc]
    have hlenne : subcluster.map PRow.protein_len ≠ [] := by
      intro hcon; exact hne (List.map_eq_nil_iff.mp hcon)
    obtain ⟨v, hv, hveq⟩ := max_count_attained _ hlenne
    obtain ⟨row, hrow, hroweq⟩ := List.mem_map.mp hv
    have hrowmodal : row ∈ subcluster.filter (fun r =>
        (subcluster.map PRow.protein_len).count r.protein_len
          == max_count (subcluster.map PRow.protein_len)) :=
      List.mem_filter.mpr ⟨hrow, by rw [hroweq]; simp [hveq]⟩
    obtain ⟨chosen, hmem, heq⟩ := choose_by_preference_ok prefs _ cluster
      ("mode" ++ toString (subcluster.filter (fun r =>
        (subcluster.map PRow.protein_len).count r.protein_len
          == max_count (subcluster.map PRow.protein_len))).length) dnc s
      ⟨row, hrowmodal, hp row hrow⟩
    refine ⟨chosen, _, ?_, heq⟩
    obtain ⟨row2, hrow2, hrow2eq⟩ := List.mem_map.mp hmem
    exact List.mem_map.mpr ⟨row2, List.mem_of_mem_filter hrow2, hrow2eq⟩
  · rw [if_neg hmc]
    have hlenne : subcluster.map PRow.protein_len ≠ [] := by
      intro hcon; exact hne (List.map_eq_nil_iff.mp hcon)
    have hlowmem := median_low_mem _ hlenne
    obtain ⟨row, hrow, hroweq⟩ := List.mem_map.mp hlowmem
    have hrowmed : row ∈ subcluster.filter (fun r =>
        r.protein_len ∈ [median_low (subcluster.map PRow.protein_len),
          median_high (subcluster.map PRow.protein_len)]) :=
      List.mem_filter.mpr ⟨hrow, by rw [hroweq]; simp⟩
    obtain ⟨chosen, hmem, heq⟩ := choose_by_preference_ok prefs _ cluster
      "median" dnc s ⟨row, hrowmed, hp row hrow⟩
    refine ⟨chosen, _, ?_, heq⟩
    obtain ⟨row2, hrow2, hrow2eq⟩ := List.mem_map.mp hmem
    exact List.mem_map.mpr ⟨row2, List.mem_of_mem_filter hrow2, hrow2eq⟩

theorem choose_drop_ids_true (chosen : Nat) (cluster : List PRow)
    (reason : String) (s : SelState) :
    (choose chosen cluster reason true s).drop_ids
      = s.drop_ids ++ (cluster.map PRow.rid).erase chosen := rfl

theorem choose_drop_ids_false (chosen : Nat) (cluster : List PRow)
    (reason : String) (s : SelState) :
    (choose chosen cluster reason false s).drop_ids = s.drop_ids := rfl

theorem choose_cluster_count_true (chosen : Nat) (cluster : List PRow)
    (reason : String) (s : SelState) :
    (choose chosen cluster reason true s).cluster_count = s.cluster_count := rfl

theorem choose_cluster_count_false (chosen : Nat) (cluster : List PRow)
    (reason : String) (s : SelState) :
    (choose chosen cluster reason false s).cluster_count
      = s.cluster_count + ((cluster.map PRow.rid).erase chosen).length := rfl

theorem mem_syntenyKeys (cluster : List PRow) (k2 : Nat) :
    k2 ∈ syntenyKeys cluster ↔ ∃ r ∈ cluster, r.synteny_id = k2 := by
  unfold syntenyKeys
  rw [List.mem_dedup]
  rw [(List.perm_insertionSort (· ≤ ·) (cluster.map PRow.synteny_id)).mem_iff]
  rw [List.mem_map]

theorem nodup_syntenyKeys (cluster : List PRow) : (syntenyKeys cluster).Nodup :=
  List.nodup_dedup _

theorem groupStep_ok (prefs : List String) (cluster : List PRow)
    (st : SelState) (k2 : Nat) (sub : List PRow)
    (hsub : sub ≠ []) (hsyn : ∀ r ∈ sub, r.synteny_id = k2)
    (hp : ∀ r ∈ sub, r.stem ∈ prefs) :
    ∃ chosen reason2, chosen ∈ sub.map PRow.rid ∧
      groupStep prefs cluster st (k2, sub)
        = Except.ok (choose chosen cluster reason2 (k2 == 0) st) := by
  unfold groupStep
  dsimp only
  by_cases hl : sub.length > 1
  · rw [if_pos hl]
    obtain ⟨chosen, reason2, hmem, heq⟩ :=
      choose_by_length_ok prefs sub cluster (k2 == 0) st hsub hp
    exact ⟨chosen, reason2, hmem, heq⟩
  · rw [if_neg hl]
    have hl1 : sub.length = 1 := by
      have := List.length_pos.mpr hsub
      omega
    obtain ⟨r, hr⟩ := List.length_eq_one.mp hl1
    subst hr
    have hrk : r.synteny_id = k2 := hsyn r (by simp)
    by_cases hz : ([r].headI : PRow).synteny_id ≠ 0
    · rw [if_pos hz]
      exact ⟨r.rid, "bad_synteny", by simp, rfl⟩
    · rw [if_neg hz]
      exact ⟨r.rid, "single", by simp, rfl⟩

theorem filter_synteny_sub (cluster : List PRow) (k2 : Nat) :
    ∀ r ∈ cluster.filter (fun r => r.synteny_id == k2), r.synteny_id = k2 := by
  intro r hr
  have := List.of_mem_filter hr
  exact beq_iff_eq.mp this

theorem groups_fold_ok (prefs : List String) (cluster : List PRow)
    (hp : ∀ r ∈ cluster, r.stem ∈ prefs) :
    ∀ keys : List Nat, keys.Nodup →
      (∀ k2 ∈ keys, ∃ r ∈ cluster, r.synteny_id = k2) →
      ∀ st : SelState, ∃ st2,
        ((keys.map (fun k2 => (k2, cluster.filter (fun r => r.synteny_id == k2)))).foldlM
          (groupStep prefs cluster) st) = Except.ok st2 ∧
        (0 ∉ keys → st2.drop_ids = st.drop_ids) ∧
        (0 ∈ keys → ∃ ch ∈ (cluster.filter (fun r => r.synteny_id == 0)).map PRow.rid,
          st2.drop_ids = st.drop_ids ++ (cluster.map PRow.rid).erase ch) ∧
        st2.cluster_count = st.cluster_count
          + (keys.filter (fun k2 => k2 != 0)).length * (cluster.length - 1) := by
  intro keys
  induction keys with
  | nil =>
    intro _ _ st
    refine ⟨st, rfl, fun _ => rfl, fun h0 => absurd h0 (by simp), by simp⟩
  | cons k2 rest ih =>
    intro hnd hkeys st
    have hsubne : cluster.filter (fun r => r.synteny_id == k2) ≠ [] := by
      obtain ⟨r, hr, hre⟩ := hkeys k2 (by simp)
      exact List.ne_nil_of_mem (List.mem_filter.mpr ⟨hr, by simp [hre]⟩)
    obtain ⟨chosen, reason2, hmem, heq⟩ := groupStep_ok prefs cluster st k2
      (cluster.filter (fun r => r.synteny_id == k2)) hsubne
      (filter_synteny_sub cluster k2)
      (fun r hr => hp r (List.mem_of_mem_filter hr))
    have hchosenc : chosen ∈ cluster.map PRow.rid := by
      obtain ⟨row, hrow, hroweq⟩ := List.mem_map.mp hmem
      exact List.mem_map.mpr ⟨row, List.mem_of_mem_filter hrow, hroweq⟩
    have heraselen : ((cluster.map PRow.rid).erase chosen).length
        = cluster.length - 1 := by
      rw [List.length_erase_of_mem hchosenc, List.length_map]
    obtain ⟨st2, hfold2, hnozero, hzero, hcount⟩ :=
      ih (List.Nodup.of_cons hnd) (fun kk hkk => hkeys kk (by simp [hkk]))
        (choose chosen cluster reason2 (k2 == 0) st)
    refine ⟨st2, ?_, ?_, ?_, ?_⟩
    · show (((k2, cluster.filter (fun r => r.synteny_id == k2)) ::
        rest.map (fun kk => (kk, cluster.filter (fun r => r.synteny_id == kk)))).foldlM
          (groupStep prefs cluster) st) = Except.ok st2
      rw [List.foldlM_cons, heq]
      exact hfold2
    · intro h0
      have h0k2 : k2 ≠ 0 := fun hc => h0 (by simp [hc])
      have h0rest : 0 ∉ rest := fun hc => h0 (by simp [hc])
      rw [hnozero h0rest]
      rw [(by simp [h0k2] : (k2 == 0) = false), choose_drop_ids_false]
    · intro h0
      rcases List.mem_cons.mp h0 with hk20 | h0rest
      · have hk2 : k2 = 0 := hk20.symm
        subst hk2
        have h0rest : (0 : Nat) ∉ rest := (List.nodup_cons.mp hnd).1
        rw [hnozero h0rest]
        rw [(by simp : ((0 : Nat) == 0) = true), choose_drop_ids_true]
        exact ⟨chosen, hmem, rfl⟩
      · obtain ⟨ch, hchm, hche⟩ := hzero h0rest
        have hk2ne : k2 ≠ 0 := by
          intro hc
          subst hc
          exact (List.nodup_cons.mp hnd).1 h0rest
        rw [(by simp [hk2ne] : (k2 == 0) = false), choose_drop_ids_false] at hche
        exact ⟨ch, hchm, hche⟩
    · rw [hcount]
      by_cases hk2 : k2 = 0
      · subst hk2
        rw [(by simp : ((0 : Nat) == 0) = true), choose_cluster_count_true]
        have hfc : (((0 : Nat) :: rest).filter (fun kk => kk != 0))
            = rest.filter (fun kk => kk != 0) := by
          rw [List.filter_cons, if_neg (by simp)]
        rw [hfc]
      · rw [(by simp [hk2] : (k2 == 0) = false), choose_cluster_count_false,
          heraselen]
        have hfc : ((k2 :: rest).filter (fun kk => kk != 0))
            = k2 :: rest.filter (fun kk => kk != 0) := by
          rw [List.filter_cons, if_pos (by simp [hk2])]
        rw [hfc, List.length_cons, Nat.succ_mul]
        omega

theorem cluster_selector_ok (prefs : List String) (cluster : List PRow)
    (s : SelState) (hne : cluster ≠ [])
    (hp : ∀ r ∈ cluster, r.stem ∈ prefs) :
    ∃ s2, cluster_selector prefs cluster s = Except.ok s2 ∧
      (cluster.length = 1 →
        s2.drop_ids = s.drop_ids ∧ s2.cluster_count = s.cluster_count + 1) ∧
      (1 < cluster.length →
        ((¬ ∃ r ∈ cluster, r.synteny_id = 0) → s2.drop_ids = s.drop_ids) ∧
        ((∃ r ∈ cluster, r.synteny_id = 0) →
          ∃ ch ∈ (cluster.filter (fun r => r.synteny_id == 0)).map PRow.rid,
            s2.drop_ids = s.drop_ids ++ (cluster.map PRow.rid).erase ch) ∧
        s2.cluster_count = s.cluster_count + 1
          + ((syntenyKeys cluster).filter (fun k2 => k2 != 0)).length
            * (cluster.length - 1)) := by
  unfold cluster_selector
  dsimp only
  by_cases hl1 : cluster.length = 1
  · rw [if_pos hl1]
    obtain ⟨r, hr⟩ := List.length_eq_one.mp hl1
    subst hr
    refine ⟨_, rfl, fun _ => ⟨?_, rfl⟩, fun hcon => by omega⟩
    rw [choose_drop_ids_true]
    simp
  · rw [if_neg hl1]
    obtain ⟨st2, hfold, hnozero, hzero, hcount⟩ :=
      groups_fold_ok prefs cluster hp (syntenyKeys cluster)
        (nodup_syntenyKeys cluster)
        (fun kk hkk => (mem_syntenyKeys cluster kk).mp hkk)
        { s with cluster_count := s.cluster_count + 1 }
    refine ⟨st2, hfold, fun hcon => absurd hcon hl1, fun _ => ⟨?_, ?_, ?_⟩⟩
    · intro hnoz
      have h0 : 0 ∉ syntenyKeys cluster := by
        rw [mem_syntenyKeys]
        exact hnoz
      exact hnozero h0
    · intro hz
      have h0 : 0 ∈ syntenyKeys cluster := (mem_syntenyKeys cluster 0).mpr hz
      exact hzero h0
    · rw [hcount]

/-- C4 counterexample: a subcluster whose protein lengths are
`[100, 100, 150, 150]` has a two-way tie at the maximal count, which
the claim says must take the median path; the code instead takes the
mode branch over all four rows and records reason `mode4`. -/
theorem choose_by_length_tie_counterexample :
    (choose_by_length ["A", "B", "C", "D"]
        [⟨1, 5, 0, 100, "A"⟩, ⟨2, 5, 0, 100, "B"⟩,
         ⟨3, 5, 0, 150, "C"⟩, ⟨4, 5, 0, 150, "D"⟩]
        [⟨1, 5, 0, 100, "A"⟩, ⟨2, 5, 0, 100, "B"⟩,
         ⟨3, 5, 0, 150, "C"⟩, ⟨4, 5, 0, 150, "D"⟩] true
        (initState ["A", "B", "C", "D"])).map (fun st => st.reasons)
      = Except.ok [(1, "mode4")] ∧
    ("mode4" : String) ≠ "median" := by
  exact ⟨rfl, by decide⟩

/-- C4 (amended): `choose_by_length` takes the mode branch whenever
some protein length occurs more than once — even when several lengths
tie at the maximal count — selecting a row whose length attains the
maximal multiplicity with reason `mode<N>`, `N` = number of rows at
maximal-multiplicity lengths; the low/high-median pair with reason
`median` is used exactly when all lengths are distinct. -/
theorem choose_by_length_mode_median (prefs : List String)
    (subcluster cluster : List PRow) (dnc : Bool) (s : SelState)
    (hlen : 1 < subcluster.length) (hp : ∀ r ∈ subcluster, r.stem ∈ prefs) :
    ∃ chosen reason2 row,
      choose_by_length prefs subcluster cluster dnc s
        = Except.ok (choose chosen cluster reason2 dnc s) ∧
      (choose chosen cluster reason2 dnc s).reasons
        = s.reasons ++ [(chosen, reason2)] ∧
      row ∈ subcluster ∧ row.rid = chosen ∧
      (1 < max_count (subcluster.map PRow.protein_len) →
        reason2 = "mode" ++ toString ((subcluster.filter (fun r =>
          (subcluster.map PRow.protein_len).count r.protein_len
            == max_count (subcluster.map PRow.protein_len))).length) ∧
        (subcluster.map PRow.protein_len).count row.protein_len
          = max_count (subcluster.map PRow.protein_len)) ∧
      (¬ 1 < max_count (subcluster.map PRow.protein_len) →
        reason2 = "median" ∧
        (row.protein_len = median_low (subcluster.map PRow.protein_len) ∨
         row.protein_len = median_high (subcluster.map PRow.protein_len))) := by
  have hne : subcluster ≠ [] := by
    intro hcon
    rw [hcon] at hlen
    simp at hlen
  unfold choose_by_length
  dsimp only
  by_cases hmc : max_count (subcluster.map PRow.protein_len) > 1
  · rw [if_pos hmc]
    have hlenne : subcluster.map PRow.protein_len ≠ [] := by
      intro hcon; exact hne (List.map_eq_nil_iff.mp hcon)
    obtain ⟨v, hv, hveq⟩ := max_count_attained _ hlenne
    obtain ⟨row0, hrow0, hrow0eq⟩ := List.mem_map.mp hv
    have hrowmodal : row0 ∈ subcluster.filter (fun r =>
        (subcluster.map PRow.protein_len).count r.protein_len
          == max_count (subcluster.map PRow.protein_len)) :=
      List.mem_filter.mpr ⟨hrow0, by rw [hrow0eq]; simp [hveq]⟩
    obtain ⟨chosen, hmem, heq⟩ := choose_by_preference_ok prefs _ cluster
      ("mode" ++ toString (subcluster.filter (fun r =>
        (subcluster.map PRow.protein_len).count r.protein_len
          == max_count (subcluster.map PRow.protein_len))).length) dnc s
      ⟨row0, hrowmodal, hp row0 hrow0⟩
    obtain ⟨row, hrowf, hroweq⟩ := List.mem_map.mp hmem
    have hb := List.of_mem_filter hrowf
    simp only [beq_iff_eq] at hb
    have hrowcount : (subcluster.map PRow.protein_len).count row.protein_len
        = max_count (subcluster.map PRow.protein_len) := hb
    refine ⟨chosen, "mode" ++ toString ((subcluster.filter (fun r =>
        (subcluster.map PRow.protein_len).count r.protein_len
          == max_count (subcluster.map PRow.protein_len))).length), row,
      heq, rfl, List.mem_of_mem_filter hrowf, hroweq,
      fun _ => ⟨rfl, hrowcount⟩, fun hcon => absurd hmc hcon⟩
  · rw [if_neg hmc]
    have hlenne : subcluster.map PRow.protein_len ≠ [] := by
      intro hcon; exact hne (List.map_eq_nil_iff.mp hcon)
    have hlowmem := median_low_mem _ hlenne
    obtain ⟨row0, hrow0, hrow0eq⟩ := List.mem_map.mp hlowmem
    have hrowmed : row0 ∈ subcluster.filter (fun r =>
        r.protein_len ∈ [median_low (subcluster.map PRow.protein_len),
          median_high (subcluster.map PRow.protein_len)]) :=
      List.mem_filter.mpr ⟨hrow0, by rw [hrow0eq]; simp⟩
    obtain ⟨chosen, hmem, heq⟩ := choose_by_preference_ok prefs _ cluster
      "median" dnc s ⟨row0, hrowmed, hp row0 hrow0⟩
    obtain ⟨row, hrowf, hroweq⟩ := List.mem_map.mp hmem
    have hrowmedv : row.protein_len
        ∈ [median_low (subcluster.map PRow.protein_len),
           median_high (subcluster.map PRow.protein_len)] := by
      have := List.of_mem_filter hrowf
      exact of_decide_eq_true this
    refine ⟨chosen, "median", row, heq, rfl, List.mem_of_mem_filter hrowf,
      hroweq, fun hcon => absurd hcon hmc, fun _ => ⟨rfl, ?_⟩⟩
    rcases List.mem_cons.mp hrowmedv with h1 | h2
    · exact Or.inl h1
    · exact Or.inr (List.mem_singleton.mp h2)

/-- Witness for `choose_by_length_mode_median` on Scenario A of the
spec: lengths `[100, 100, 150]` with a strict mode. -/
theorem choose_by_length_mode_median_witness :
    ∃ (chosen : Nat) (reason2 : String) (row : PRow),
      choose_by_length ["A", "B", "C"]
          [⟨1, 7, 0, 100, "A"⟩, ⟨2, 7, 0, 100, "B"⟩, ⟨3, 7, 0, 150, "C"⟩]
          [⟨1, 7, 0, 100, "A"⟩, ⟨2, 7, 0, 100, "B"⟩, ⟨3, 7, 0, 150, "C"⟩]
          true (initState ["A", "B", "C"])
        = Except.ok (choose chosen
            [⟨1, 7, 0, 100, "A"⟩, ⟨2, 7, 0, 100, "B"⟩, ⟨3, 7, 0, 150, "C"⟩]
            reason2 true (initState ["A", "B", "C"])) ∧
      (choose chosen
          [⟨1, 7, 0, 100, "A"⟩, ⟨2, 7, 0, 100, "B"⟩, ⟨3, 7, 0, 150, "C"⟩]
          reason2 true (initState ["A", "B", "C"])).reasons
        = (initState ["A", "B", "C"]).reasons ++ [(chosen, reason2)] ∧
      row ∈ [⟨1, 7, 0, 100, "A"⟩, ⟨2, 7, 0, 100, "B"⟩, ⟨3, 7, 0, 150, "C"⟩] ∧
      row.rid = chosen := by
  obtain ⟨chosen, reason2, row, h1, h2, h3, h4, _, _⟩ :=
    choose_by_length_mode_median ["A", "B", "C"]
      [⟨1, 7, 0, 100, "A"⟩, ⟨2, 7, 0, 100, "B"⟩, ⟨3, 7, 0, 150, "C"⟩]
      [⟨1, 7, 0, 100, "A"⟩, ⟨2, 7, 0, 100, "B"⟩, ⟨3, 7, 0, 150, "C"⟩]
      true (initState ["A", "B", "C"]) (by decide) (by decide)
  exact ⟨chosen, reason2, row, h1, h2, h3, h4⟩

/-- C2 counterexample: in a two-member cluster whose only synteny group
has `synteny_id = 5 ≠ 0` nothing is dropped (the non-chosen member is
merely counted), while in a two-member cluster whose only group has
`synteny_id = 0` the non-chosen member is dropped — the opposite of the
claimed polarity of `drop_non_chosen`. -/
theorem synteny_group_drop_polarity_counterexample :
    (cluster_selector ["A", "B"] [⟨10, 1, 5, 10, "A"⟩, ⟨11, 1, 5, 20, "B"⟩]
      (initState ["A", "B"])).map (fun st => st.drop_ids) = Except.ok [] ∧
    (cluster_selector ["A", "B"] [⟨12, 2, 0, 10, "A"⟩, ⟨13, 2, 0, 20, "B"⟩]
      (initState ["A", "B"])).map (fun st => st.drop_ids)
      = Except.ok [13] := by
  exact ⟨rfl, rfl⟩

/-- C2 (amended): for every multi-member cluster, the group with
`synteny_id == 0` is the one processed with `drop_non_chosen = True`
(`not synteny_id`), and its resolution drops every other member of the
whole cluster; groups with `synteny_id ≠ 0` are processed with
`drop_non_chosen = False`, dropping nothing and merely accumulating
`len(cluster) - 1` per group into `cluster_count`. -/
theorem synteny_group_drop_polarity (prefs : List String)
    (cluster : List PRow) (s : SelState) (hmulti : 1 < cluster.length)
    (hp : ∀ r ∈ cluster, r.stem ∈ prefs) :
    ∃ s2, cluster_selector prefs cluster s = Except.ok s2 ∧
      ((¬ ∃ r ∈ cluster, r.synteny_id = 0) → s2.drop_ids = s.drop_ids) ∧
      ((∃ r ∈ cluster, r.synteny_id = 0) →
        ∃ ch ∈ (cluster.filter (fun r => r.synteny_id == 0)).map PRow.rid,
          s2.drop_ids = s.drop_ids ++ (cluster.map PRow.rid).erase ch) ∧
      s2.cluster_count = s.cluster_count + 1
        + ((syntenyKeys cluster).filter (fun k2 => k2 != 0)).length
          * (cluster.length - 1) := by
  have hne : cluster ≠ [] := by
    intro hcon
    rw [hcon] at hmulti
    simp at hmulti
  obtain ⟨s2, heq, _, hrest⟩ := cluster_selector_ok prefs cluster s hne hp
  obtain ⟨hnoz, hz, hcount⟩ := hrest hmulti
  exact ⟨s2, heq, hnoz, hz, hcount⟩

/-- Witness for `synteny_group_drop_polarity` on a concrete two-member
cluster with synteny_id 0. -/
theorem synteny_group_drop_polarity_witness :
    ∃ s2, cluster_selector ["A", "B"]
        [⟨12, 2, 0, 10, "A"⟩, ⟨13, 2, 0, 20, "B"⟩]
        (initState ["A", "B"]) = Except.ok s2 ∧
      ∃ ch ∈ (([⟨12, 2, 0, 10, "A"⟩, ⟨13, 2, 0, 20, "B"⟩] : List PRow).filter
          (fun r => r.synteny_id == 0)).map PRow.rid,
        s2.drop_ids = (initState ["A", "B"]).drop_ids
          ++ (([⟨12, 2, 0, 10, "A"⟩, ⟨13, 2, 0, 20, "B"⟩] : List PRow).map
            PRow.rid).erase ch := by
  obtain ⟨s2, heq, _, hz, _⟩ := synteny_group_drop_polarity ["A", "B"]
    [⟨12, 2, 0, 10, "A"⟩, ⟨13, 2, 0, 20, "B"⟩] (initState ["A", "B"])
    (by decide) (by decide)
  exact ⟨s2, heq, hz ⟨⟨12, 2, 0, 10, "A"⟩, by decide, rfl⟩⟩

theorem ClusterDrop_subset (mems : List PRow) (d : List Nat)
    (h : ClusterDrop mems d) : ∀ x ∈ d, x ∈ mems.map PRow.rid := by
  rcases h with ⟨rfl, _⟩ | ⟨_, ch, _, rfl⟩
  · intro x hx; cases hx
  · intro x hx
    exact List.mem_of_mem_erase hx

theorem mem_clusterKeys (frame : List PRow) (c : Nat) :
    c ∈ clusterKeys frame ↔ ∃ r ∈ frame, r.cluster_id = c := by
  unfold clusterKeys
  rw [List.mem_dedup]
  rw [(List.perm_insertionSort (· ≤ ·) (frame.map PRow.cluster_id)).mem_iff]
  rw [List.mem_map]

theorem nodup_clusterKeys (frame : List PRow) : (clusterKeys frame).Nodup :=
  List.nodup_dedup _

theorem selector_fold_ok (prefs : List String) (frame : List PRow)
    (hp : ∀ r ∈ frame, r.stem ∈ prefs) :
    ∀ keys : List Nat, keys.Nodup →
      (∀ c ∈ keys, ∃ r ∈ frame, r.cluster_id = c) →
      ∀ acc : SelState, ∃ st,
        (keys.foldlM (fun s c => cluster_selector prefs
          (frame.filter (fun r => r.cluster_id == c)) s) acc) = Except.ok st ∧
        ∃ F : Nat → List Nat,
          (∀ c ∈ keys,
            ClusterDrop (frame.filter (fun r => r.cluster_id == c)) (F c)) ∧
          (∀ x, x ∈ st.drop_ids ↔ (x ∈ acc.drop_ids ∨ ∃ c ∈ keys, x ∈ F c)) := by
  intro keys
  induction keys with
  | nil =>
    intro _ _ acc
    refine ⟨acc, rfl, fun _ => ([] : List Nat), fun c hc => absurd hc (by simp),
      fun x => ?_⟩
    simp
  | cons c keys2 ih =>
    intro hnd hkeys acc
    have hmemC : ∀ r ∈ frame.filter (fun r => r.cluster_id == c), r.stem ∈ prefs :=
      fun r hr => hp r (List.mem_of_mem_filter hr)
    have hne : frame.filter (fun r => r.cluster_id == c) ≠ [] := by
      obtain ⟨r, hr, hre⟩ := hkeys c (by simp)
      exact List.ne_nil_of_mem (List.mem_filter.mpr ⟨hr, by simp [hre]⟩)
    obtain ⟨s2, heq, hsingle, hmulti⟩ :=
      cluster_selector_ok prefs (frame.filter (fun r => r.cluster_id == c))
        acc hne hmemC
    -- the drop contribution of this cluster
    have hd : ∃ d, s2.drop_ids = acc.drop_ids ++ d ∧
        ClusterDrop (frame.filter (fun r => r.cluster_id == c)) d := by
      by_cases hl1 : (frame.filter (fun r => r.cluster_id == c)).length = 1
      · obtain ⟨hdrop, _⟩ := hsingle hl1
        exact ⟨[], by simp [hdrop], Or.inl ⟨rfl, Or.inl hl1⟩⟩
      · have hgt : 1 < (frame.filter (fun r => r.cluster_id == c)).length := by
          have := List.length_pos.mpr hne
          omega
        obtain ⟨hnoz, hz, _⟩ := hmulti hgt
        by_cases hzx : ∃ r ∈ frame.filter (fun r => r.cluster_id == c),
          r.synteny_id = 0
        · obtain ⟨ch, hch, hdrop⟩ := hz hzx
          exact ⟨_, hdrop, Or.inr ⟨hgt, ch, hch, rfl⟩⟩
        · exact ⟨[], by simp [hnoz hzx], Or.inl ⟨rfl, Or.inr hzx⟩⟩
    obtain ⟨d, hdrop, hcd⟩ := hd
    obtain ⟨st, hfold2, F2, hF2, hmem2⟩ :=
      ih (List.Nodup.of_cons hnd) (fun kk hkk => hkeys kk (by simp [hkk])) s2
    have hcnotin : c ∉ keys2 := (List.nodup_cons.mp hnd).1
    refine ⟨st, ?_, fun c2 => if c2 = c then d else F2 c2, ?_, ?_⟩
    · rw [List.foldlM_cons, heq]
      exact hfold2
    · intro c2 hc2
      rcases List.mem_cons.mp hc2 with rfl | hc2k
      · dsimp only
        rw [if_pos rfl]
        exact hcd
      · have hne2 : c2 ≠ c := by
          intro hcon
          subst hcon
          exact hcnotin hc2k
        dsimp only
        rw [if_neg hne2]
        exact hF2 c2 hc2k
    · intro x
      rw [hmem2 x, hdrop, List.mem_append]
      constructor
      · rintro ((hacc | hdmem) | ⟨c2, hc2, hFx⟩)
        · exact Or.inl hacc
        · exact Or.inr ⟨c, by simp, by dsimp only; rw [if_pos rfl]; exact hdmem⟩
        · have hne2 : c2 ≠ c := by
            intro hcon
            subst hcon
            exact hcnotin hc2
          exact Or.inr ⟨c2, by simp [hc2],
            by dsimp only; rw [if_neg hne2]; exact hFx⟩
      · rintro (hacc | ⟨c2, hc2, hFx⟩)
        · exact Or.inl (Or.inl hacc)
        · rcases List.mem_cons.mp hc2 with rfl | hc2k
          · dsimp only at hFx
            rw [if_pos rfl] at hFx
            exact Or.inl (Or.inr hFx)
          · have hne2 : c2 ≠ c := by
              intro hcon
              subst hcon
              exact hcnotin hc2k
            dsimp only at hFx
            rw [if_neg hne2] at hFx
            exact Or.inr ⟨c2, hc2k, hFx⟩

theorem filter_swap {α : Type} (l : List α) (p q : α → Bool) :
    (l.filter q).filter p = (l.filter p).filter q := by
  rw [List.filter_filter, List.filter_filter]
  exact List.filter_congr (fun a _ => by rw [Bool.and_comm])

theorem retained_one (mems : List PRow) (hnd2 : (mems.map PRow.rid).Nodup)
    (ch : Nat) (hch : ch ∈ mems.map PRow.rid) :
    (mems.filter
      (fun r => !(((mems.map PRow.rid).erase ch).contains r.rid))).length = 1 := by
  have hcongr : ∀ r ∈ mems,
      (!(((mems.map PRow.rid).erase ch).contains r.rid)) = (r.rid == ch) := by
    intro r hr
    have hmemrid : r.rid ∈ mems.map PRow.rid := List.mem_map.mpr ⟨r, hr, rfl⟩
    by_cases hrc : r.rid = ch
    · have hnotin : r.rid ∉ (mems.map PRow.rid).erase ch := by
        rw [hrc]
        intro hcon
        exact ((hnd2.mem_erase_iff).mp hcon).1 rfl
      have e1 : ((mems.map PRow.rid).erase ch).contains r.rid = false := by
        rw [Bool.eq_false_iff]
        intro hcon
        exact hnotin (List.elem_iff.mp hcon)
      rw [e1, (beq_iff_eq.mpr hrc)]
      rfl
    · have hisin : r.rid ∈ (mems.map PRow.rid).erase ch :=
        (hnd2.mem_erase_iff).mpr ⟨hrc, hmemrid⟩
      have e1 : ((mems.map PRow.rid).erase ch).contains r.rid = true :=
        List.elem_iff.mpr hisin
      rw [e1]
      have e2 : (r.rid == ch) = false := beq_eq_false_iff_ne.mpr hrc
      rw [e2]
      rfl
  rw [List.filter_congr hcongr]
  rw [← List.countP_eq_length_filter]
  have hcnt : List.countP (fun r => r.rid == ch) mems
      = List.count ch (mems.map PRow.rid) := by
    rw [List.count_eq_countP, List.countP_map]
    rfl
  rw [hcnt]
  have h1 := List.nodup_iff_count_le_one.mp hnd2 ch
  have h2 := List.count_pos_iff.mpr hch
  omega

/-- C1 (amended): the downselection pipeline retains exactly one row
per distinct cluster_id for every cluster that is a singleton or has at
least one member with `synteny_id == 0` (the zero group's choice drops
all other members of the whole cluster); a multi-member cluster whose
members all carry nonzero synteny ids is passed through entirely, so
more than one of its rows remains. -/
theorem proxy_exhaustiveness_refined (frame : List PRow)
    (prefs : List String) (hnd : (frame.map PRow.rid).Nodup)
    (hp : ∀ r ∈ frame, r.stem ∈ prefs) :
    ∃ out, proxy_select frame prefs = Except.ok out ∧
      ∀ c ∈ clusterKeys frame,
        (((frame.filter (fun r => r.cluster_id == c)).length = 1 ∨
          ∃ r ∈ frame.filter (fun r => r.cluster_id == c), r.synteny_id = 0) →
          (out.filter (fun r => r.cluster_id == c)).length = 1) ∧
        ((1 < (frame.filter (fun r => r.cluster_id == c)).length ∧
          ¬ ∃ r ∈ frame.filter (fun r => r.cluster_id == c), r.synteny_id = 0) →
          out.filter (fun r => r.cluster_id == c)
            = frame.filter (fun r => r.cluster_id == c)) := by
  obtain ⟨st, hfold, F, hF, hmem⟩ := selector_fold_ok prefs frame hp
    (clusterKeys frame) (nodup_clusterKeys frame)
    (fun c hc => (mem_clusterKeys frame c).mp hc) (initState prefs)
  refine ⟨downselect_frame frame st, ?_, ?_⟩
  · unfold proxy_select runSelector
    rw [hfold]
    rfl
  · intro c hc
    have hdropchar : ∀ r ∈ frame.filter (fun r => r.cluster_id == c),
        (r.rid ∈ st.drop_ids ↔ r.rid ∈ F c) := by
      intro r hr
      rw [hmem r.rid]
      have hinit : r.rid ∉ (initState prefs).drop_ids := by simp [initState]
      constructor
      · rintro (hacc | ⟨c2, hc2, hFx⟩)
        · exact absurd hacc hinit
        · have hsub := ClusterDrop_subset _ _ (hF c2 hc2) r.rid hFx
          obtain ⟨r2, hr2, hr2eq⟩ := List.mem_map.mp hsub
          have hr2f : r2 ∈ frame := List.mem_of_mem_filter hr2
          have hrf : r ∈ frame := List.mem_of_mem_filter hr
          have hr2r : r2 = r := List.inj_on_of_nodup_map hnd hr2f hrf hr2eq
          subst hr2r
          have h1 : r2.cluster_id = c2 := by
            have := List.of_mem_filter hr2
            exact beq_iff_eq.mp this
          have h2 : r2.cluster_id = c := by
            have := List.of_mem_filter hr
            exact beq_iff_eq.mp this
          have hcc : c2 = c := by omega
          subst hcc
          exact hFx
      · intro hFc
        exact Or.inr ⟨c, hc, hFc⟩
    have hb : (downselect_frame frame st).filter (fun r => r.cluster_id == c)
        = (frame.filter (fun r => r.cluster_id == c)).filter
            (fun r => !(st.drop_ids.contains r.rid)) := by
      unfold downselect_frame
      exact filter_swap frame _ _
    have hcgr : (frame.filter (fun r => r.cluster_id == c)).filter
          (fun r => !(st.drop_ids.contains r.rid))
        = (frame.filter (fun r => r.cluster_id == c)).filter
          (fun r => !((F c).contains r.rid)) := by
      apply List.filter_congr
      intro r hr
      by_cases hin : r.rid ∈ st.drop_ids
      · have hin2 : r.rid ∈ F c := (hdropchar r hr).mp hin
        have e1 : st.drop_ids.contains r.rid = true := List.elem_iff.mpr hin
        have e2 : (F c).contains r.rid = true := List.elem_iff.mpr hin2
        rw [e1, e2]
      · have hin2 : r.rid ∉ F c := fun hcon => hin ((hdropchar r hr).mpr hcon)
        have e1 : st.drop_ids.contains r.rid = false := by
          rw [Bool.eq_false_iff]
          intro hcon
          exact hin (List.elem_iff.mp hcon)
        have e2 : (F c).contains r.rid = false := by
          rw [Bool.eq_false_iff]
          intro hcon
          exact hin2 (List.elem_iff.mp hcon)
        rw [e1, e2]
    have hndc : ((frame.filter (fun r => r.cluster_id == c)).map PRow.rid).Nodup :=
      List.Nodup.sublist (List.Sublist.map PRow.rid (List.filter_sublist frame)) hnd
    rw [hb, hcgr]
    rcases hF c hc with ⟨hFnil, hside⟩ | ⟨hgt, ch, hchm, hFeq⟩
    · have hall : (frame.filter (fun r => r.cluster_id == c)).filter
          (fun r => !((F c).contains r.rid))
          = frame.filter (fun r => r.cluster_id == c) := by
        rw [hFnil]
        simp
      rw [hall]
      constructor
      · rintro (hlen1 | hzero)
        · exact hlen1
        · rcases hside with hlen1 | hnoz
          · exact hlen1
          · exact absurd hzero hnoz
      · intro _
        rfl
    · have hchmem : ch ∈ (frame.filter (fun r => r.cluster_id == c)).map PRow.rid := by
        obtain ⟨r2, hr2, hr2eq⟩ := List.mem_map.mp hchm
        exact List.mem_map.mpr ⟨r2, List.mem_of_mem_filter hr2, hr2eq⟩
      rw [hFeq]
      constructor
      · intro _
        exact retained_one _ hndc ch hchmem
      · rintro ⟨_, hnoz⟩
        obtain ⟨r2, hr2, _⟩ := List.mem_map.mp hchm
        have hz2 : r2.synteny_id = 0 := by
          have := List.of_mem_filter hr2
          exact beq_iff_eq.mp this
        exact absurd ⟨r2, List.mem_of_mem_filter hr2, hz2⟩ hnoz

/-- C1 counterexample: a single two-member cluster whose members both
carry `synteny_id = 5` is passed through with both rows retained — two
rows with the same cluster_id remain, not one. -/
theorem proxy_exhaustiveness_counterexample :
    (proxy_select [⟨10, 1, 5, 10, "A"⟩, ⟨11, 1, 5, 20, "B"⟩]
      ["A", "B"]).map (fun out => out.map PRow.cluster_id)
      = Except.ok [1, 1] := by
  rfl

/-- Witness for `proxy_exhaustiveness_refined`: a frame with one
singleton cluster, one all-zero-synteny cluster, and one
nonzero-synteny cluster. -/
theorem proxy_exhaustiveness_refined_witness :
    ∃ out, proxy_select
        [⟨10, 1, 5, 10, "A"⟩, ⟨11, 1, 5, 20, "B"⟩,
         ⟨12, 2, 0, 10, "A"⟩, ⟨13, 2, 0, 20, "B"⟩, ⟨14, 3, 0, 30, "A"⟩]
        ["A", "B"] = Except.ok out := by
  obtain ⟨out, heq, _⟩ := proxy_exhaustiveness_refined
    [⟨10, 1, 5, 10, "A"⟩, ⟨11, 1, 5, 20, "B"⟩,
     ⟨12, 2, 0, 10, "A"⟩, ⟨13, 2, 0, 20, "B"⟩, ⟨14, 3, 0, 30, "A"⟩]
    ["A", "B"] (by decide) (by decide)
  exact ⟨out, heq⟩
